import Mathlib

/-!
# UART command processor (`uart_command.c`)

A shallow embedding of `Drivers/User/Src/uart_command.c`: the parameter
aggregate `Params`, the command table `Uart_command_table` and the entry
point `Uart_Command_Process`, together with the C library routines the
function calls (`strchr`, `strlen`, `strncmp`, `sscanf`, `sprintf`).

Conventions of the embedding.

* A C string is the list of the characters that precede its terminating NUL.
* `Params` is 28 bytes of memory, seven aligned 4-byte words.  A pointer into
  it is the byte offset from `&Params`; a word is kept as its 32-bit pattern
  (a natural number), read as a two's complement `int` or as a binary32
  `float` according to the conversion that touches it.
* `tx_temp_buffer` is a list of bytes, 64 long when declared.  A write that
  runs past its end makes the list longer: the extra bytes stand for the
  memory that follows the array, so an overflow stays visible.
* The conversion of text to a `float` done by `sscanf("%f")` is a parameter
  `scanF` of the embedding (the text is mapped to the bit pattern stored, or
  to `none` when no conversion takes place).  Everything else is computed.
-/

namespace UartCommand

/-! ## C library -/

/-- The C function `strlen`. -/
def strlen (s : List Char) : Nat := s.length

/-- The C function `strchr s c`, for a character `c` other than NUL: the part of `s` that
starts at the first `c`, or `none` (NULL) when there is none. -/
def strchr : List Char → Char → Option (List Char)
  | [], _ => none
  | a :: s, c => if a = c then some (a :: s) else strchr s c

/-- The C function `strncmp a b n`: it compares at most `n` characters, a string that ends
first supplies a NUL (code 0).  The result is the difference at the first
position where the strings differ, `0` when there is none. -/
def strncmp : List Char → List Char → Nat → Int
  | _, _, 0 => 0
  | [], [], _ + 1 => 0
  | [], b :: _, _ + 1 => - (b.toNat : Int)
  | a :: _, [], _ + 1 => (a.toNat : Int)
  | a :: as, b :: bs, n + 1 =>
    if a = b then strncmp as bs n else (a.toNat : Int) - (b.toNat : Int)

/-- The C function `isspace` in the C locale. -/
def isspace (c : Char) : Bool :=
  c = ' ' || c = '\t' || c = '\n' || c = '\x0b' || c = '\x0c' || c = '\r'

/-- The C function `isdigit`. -/
def isdigit (c : Char) : Bool := decide (48 ≤ c.toNat) && decide (c.toNat ≤ 57)

/-- The character of a decimal digit. -/
def digitChar (d : Nat) : Char :=
  match d with
  | 0 => '0' | 1 => '1' | 2 => '2' | 3 => '3' | 4 => '4'
  | 5 => '5' | 6 => '6' | 7 => '7' | 8 => '8' | _ => '9'

/-- Value of a run of decimal digits, most significant first, continuing
from the value `acc` of the digits already read. -/
def digitsValue : List Char → Nat → Nat
  | [], acc => acc
  | c :: cs, acc => digitsValue cs (10 * acc + (c.toNat - 48))

/-- Decimal digits of `n`, most significant first, no leading zero.  The
first argument bounds the number of digits produced. -/
def decDigits : Nat → Nat → List Char
  | 0, _ => []
  | fuel + 1, n =>
    if n < 10 then [digitChar n] else decDigits fuel (n / 10) ++ [digitChar (n % 10)]

/-- Decimal text of a natural number. -/
def fmtNat (n : Nat) : List Char := decDigits (n + 1) n

/-- The `int` a 32-bit word holds (two's complement). -/
def toInt (w : Nat) : Int :=
  if w % 2 ^ 32 < 2 ^ 31 then ((w % 2 ^ 32 : Nat) : Int) else ((w % 2 ^ 32 : Nat) : Int) - 2 ^ 32

/-- The 32-bit word that holds an `int`. -/
def toWord (v : Int) : Nat := (v % 2 ^ 32).toNat

/-- Least value of a 32-bit `int`. -/
def INT_MIN : Int := - 2 ^ 31

/-- Greatest value of a 32-bit `int`. -/
def INT_MAX : Int := 2 ^ 31 - 1

/-- Text produced by `sprintf("%d", x)`. -/
def fmtInt (x : Int) : List Char :=
  if x < 0 then '-' :: fmtNat x.natAbs else fmtNat x.natAbs

/-- Conversion done by `sscanf(s, "%d", &x)`: white space is skipped, an
optional sign and the longest run of digits are read.  `none` when no digit is
found (input failure or matching failure, `x` is left alone).  A value outside
the range of `long` (32 bits on the target) is clamped as `strtol` does. -/
def scanInt (s : List Char) : Option Int :=
  let s1 := s.dropWhile isspace
  let neg : Bool := s1.head? = some '-'
  let s2 := if s1.head? = some '-' ∨ s1.head? = some '+' then s1.tail else s1
  let ds := s2.takeWhile isdigit
  if ds = [] then none
  else
    let m : Int := (digitsValue ds 0 : Nat)
    let v : Int := if neg then - m else m
    some (if v < INT_MIN then INT_MIN else if INT_MAX < v then INT_MAX else v)

/-- The `k` low decimal digits of `n`, most significant first, zero padded. -/
def fixedDigits : Nat → Nat → List Char
  | 0, _ => []
  | k + 1, n => fixedDigits k (n / 10) ++ [digitChar (n % 10)]

/-- Text produced by `sprintf("%f", x)` for the `float` with bit pattern `w`:
the exact value rounded to six fraction digits (to nearest, ties to even),
`inf` and `nan` for the special values, a leading `-` when the sign bit is
set. -/
def fmtFloat (w : Nat) : List Char :=
  let b := w % 2 ^ 32
  let sign : List Char := if b / 2 ^ 31 = 1 then ['-'] else []
  let e := (b / 2 ^ 23) % 256
  let f := b % 2 ^ 23
  if e = 255 then
    sign ++ (if f = 0 then ['i', 'n', 'f'] else ['n', 'a', 'n'])
  else
    let m := if e = 0 then f else 2 ^ 23 + f
    -- the value is m * 2 ^ (e' - 150) with e' = max e 1
    let e' := if e = 0 then 1 else e
    let num := m * 10 ^ 6 * 2 ^ (e' - 150)
    let den := 2 ^ (150 - e')
    let q := num / den
    let r := num % den
    let scaled := if den < 2 * r ∨ (2 * r = den ∧ q % 2 = 1) then q + 1 else q
    sign ++ fmtNat (scaled / 10 ^ 6) ++ ['.'] ++ fixedDigits 6 (scaled % 10 ^ 6)

/-- The call `sprintf(buf + pos, ...)` producing the text `s`: the characters of `s`
and a terminating NUL are written from index `pos` on. -/
def sprintf (buf : List Char) (pos : Nat) (s : List Char) : List Char :=
  buf.take pos ++ (s ++ ['\x00']) ++ buf.drop (pos + s.length + 1)

/-! ## Parameter store -/

/-- The type `struct Params_t`: `int RGB[3]` at byte offsets 0, 4, 8, `int State` at 12,
`float Temper` at 16 and `float XY[2]` at 20, 24, each as a 32-bit word. -/
structure Params_t where
  RGB0 : Nat
  RGB1 : Nat
  RGB2 : Nat
  State : Nat
  Temper : Nat
  XY0 : Nat
  XY1 : Nat
deriving DecidableEq

/-- The word at byte offset `off` of the aggregate (offsets outside the
aggregate are not part of the embedding and read as 0). -/
def Params_t.load (p : Params_t) (off : Nat) : Nat :=
  if off = 0 then p.RGB0 else if off = 4 then p.RGB1 else if off = 8 then p.RGB2
  else if off = 12 then p.State else if off = 16 then p.Temper
  else if off = 20 then p.XY0 else if off = 24 then p.XY1 else 0

/-- Store of a word at byte offset `off` of the aggregate (a store outside the
aggregate is not part of the embedding and changes nothing). -/
def Params_t.store (p : Params_t) (off : Nat) (w : Nat) : Params_t :=
  if off = 0 then { p with RGB0 := w } else if off = 4 then { p with RGB1 := w }
  else if off = 8 then { p with RGB2 := w } else if off = 12 then { p with State := w }
  else if off = 16 then { p with Temper := w } else if off = 20 then { p with XY0 := w }
  else if off = 24 then { p with XY1 := w } else p

/-- The initial value of the global `Params`. -/
def Params : Params_t := ⟨0, 0, 0, 0, 0, 0, 0⟩

/-! ## Command table -/

/-- The type `struct Uart_command`. -/
structure Uart_command where
  name : List Char
  scanfmt : List Char
  para_num : Nat
  paraOffset : Nat
deriving DecidableEq

/-- The command table; `paraOffset` is `offsetof(struct Params_t, field)`. -/
def Uart_command_table : List Uart_command :=
  [ ⟨['R', 'G', 'B'], ['%', 'd'], 3, 0⟩,
    ⟨['S', 't', 'a', 't', 'e'], ['%', 'd'], 1, 12⟩,
    ⟨['T', 'e', 'm', 'p', 'e', 'r'], ['%', 'f'], 1, 16⟩,
    ⟨['X', 'Y'], ['%', 'f'], 2, 20⟩ ]

/-- Return value `UART_COMMAND_PROCESS_OK`. -/
def UART_COMMAND_PROCESS_OK : Nat := 0

/-- Return value `UART_COMMAND_PROCESS_ERROR`. -/
def UART_COMMAND_PROCESS_ERROR : Nat := 1

/-! ## `Uart_Command_Process` -/

/-- The call `sscanf(s, fmt, ParamsPtr)` for the two formats of the table:
the word assigned through `ParamsPtr`, or `none` when the conversion fails and
nothing is assigned.  The return value of `sscanf` is not used by the caller. -/
def sscanf (scanF : List Char → Option Nat) (s fmt : List Char) : Option Nat :=
  if fmt = ['%', 'd'] then (scanInt s).map toWord
  else if fmt = ['%', 'f'] then (scanF s).map (fun w => w % 2 ^ 32)
  else none

/-- The loop over the values of a set command (lines 121-144).  The first
argument counts the iterations that remain (`para_num - j`).  The result is the
store and the value of `j` when the loop is left. -/
def setLoop (scanF : List Char → Option Nat) (e : Uart_command) :
    Nat → Nat → List Char → Nat → Params_t → Params_t × Nat
  | 0, j, _, _, p => (p, j)
  | rem + 1, j, ParamValue, ParamsPtr, p =>
    let next : Option (List Char) :=
      if j ≠ 0 then (strchr ParamValue ',').map List.tail else some ParamValue
    match next with
    | none => (p, j)
    | some ParamValue' =>
      let p' :=
        match sscanf scanF ParamValue' e.scanfmt with
        | some w => p.store ParamsPtr w
        | none => p
      let ParamsPtr' :=
        if e.scanfmt.getD 1 '\x00' = 'd' then ParamsPtr + 4
        else if e.scanfmt.getD 1 '\x00' = 'f' then ParamsPtr + 4
        else ParamsPtr
      setLoop scanF e rem (j + 1) ParamValue' ParamsPtr' p'

/-- The variables of `Uart_Command_Process` that the table scan sets, with the
global `Params`.  `CheckPtr` is an offset into `Params`; it is `NULL` (0 here)
until a query is recorded and is read only after that. -/
structure ScanState where
  Status : Nat
  Params : Params_t
  check_request : Nat
  CheckPtr : Nat
deriving DecidableEq

/-- The variables on entry (lines 90-98), the global `Params` holding `P`. -/
def initState (P : Params_t) : ScanState := ⟨UART_COMMAND_PROCESS_ERROR, P, 0, 0⟩

/-- Body of the branch taken for the table entry `e` at index `i` whose name
matched (lines 114-155). -/
def commandBody (scanF : List Char → Option Nat) (e : Uart_command) (i : Nat)
    (ParamValue : List Char) (s : ScanState) : ScanState :=
  let ParamsPtr := e.paraOffset
  if ParamValue.headD '\x00' ≠ '?' then
    let r := setLoop scanF e e.para_num 0 ParamValue ParamsPtr s.Params
    { s with
      Params := r.1
      Status := if r.2 = e.para_num then UART_COMMAND_PROCESS_OK else s.Status }
  else
    { s with check_request := i + 1, CheckPtr := ParamsPtr }

/-- The scan of the command table (lines 106-159): the first entry whose name
compares equal to the start of `data` is processed and the scan stops. -/
def tableLoop (scanF : List Char → Option Nat) (data ParamValue : List Char) :
    List Uart_command → Nat → ScanState → ScanState
  | [], _, s => s
  | e :: rest, i, s =>
    if strncmp data e.name (strlen e.name) = 0 then commandBody scanF e i ParamValue s
    else tableLoop scanF data ParamValue rest (i + 1) s

/-- The variables of the response formatter: the buffer, `ParamsPtr` as an
index into it, and `CheckPtr` as an offset into `Params`. -/
structure TxState where
  tx_temp_buffer : List Char
  ParamsPtr : Nat
  CheckPtr : Nat
deriving DecidableEq

/-- One pass through the body of the formatting loop (lines 174-220) for
element `i`.  The flag is `true` when the pass ends in `break`. -/
def queryBody (e : Uart_command) (p : Params_t) (i : Nat) (s : TxState) : TxState × Bool :=
  if s.ParamsPtr + 1 > 64 then (s, true)
  else
    let s1 : TxState :=
      if i ≠ 0 then
        { s with
          tx_temp_buffer := sprintf s.tx_temp_buffer s.ParamsPtr [',']
          ParamsPtr := s.ParamsPtr + 1 }
      else s
    let r : TxState × Bool :=
      if e.scanfmt.getD 1 '\x00' = 'd' then
        if s1.ParamsPtr + 5 > 64 then (s1, true)
        else
          let txt := fmtInt (toInt (p.load s1.CheckPtr))
          ({ tx_temp_buffer := sprintf s1.tx_temp_buffer s1.ParamsPtr txt
             ParamsPtr := s1.ParamsPtr + txt.length
             CheckPtr := s1.CheckPtr + 4 }, false)
      else if e.scanfmt.getD 1 '\x00' = 'f' then
        if s1.ParamsPtr + 5 > 64 then (s1, true)
        else
          let txt := fmtFloat (p.load s1.CheckPtr)
          ({ tx_temp_buffer := sprintf s1.tx_temp_buffer s1.ParamsPtr txt
             ParamsPtr := s1.ParamsPtr + txt.length
             CheckPtr := s1.CheckPtr + 4 }, false)
      else (s1, false)
    if r.2 then r
    else if (i : Int) = (e.para_num : Int) - 1 then
      if r.1.ParamsPtr + 3 > 64 then (r.1, true)
      else
        ({ r.1 with
           tx_temp_buffer := sprintf r.1.tx_temp_buffer r.1.ParamsPtr ['\r', '\n']
           ParamsPtr := r.1.ParamsPtr + 2 }, false)
    else r

/-- The formatting loop (lines 172-221); the first argument counts the
iterations that remain (`para_num - i`). -/
def queryLoop (e : Uart_command) (p : Params_t) : Nat → Nat → TxState → TxState
  | 0, _, s => s
  | rem + 1, i, s =>
    let r := queryBody e p i s
    if r.2 then r.1 else queryLoop e p rem (i + 1) r.1

/-- Lines 165-221: the buffer is cleared, the name and `=` are written, then
the elements are formatted. -/
def formatResponse (e : Uart_command) (p : Params_t) (CheckPtr : Nat) : TxState :=
  let buf0 := List.replicate 64 '\x00'
  let buf1 := sprintf buf0 0 e.name
  let buf2 := sprintf buf1 (strlen e.name) ['=']
  queryLoop e p e.para_num 0 ⟨buf2, strlen e.name + 1, CheckPtr⟩

/-- What a call of `Uart_Command_Process` does: the value returned, the
contents of `Params` afterwards, and the byte sequences handed to
`UART_Transmit_Buffer`, in order. -/
structure Outcome where
  Status : Nat
  Params : Params_t
  sent : List (List Char)
deriving DecidableEq

/-- The formatter state of the query that `Uart_Command_Process` answers,
for the values of `check_request` and `CheckPtr` left by the table scan. -/
def responseOf (s : ScanState) : TxState :=
  formatResponse (Uart_command_table.getD (s.check_request - 1) ⟨[], [], 0, 0⟩) s.Params
    s.CheckPtr

/-- Lines 162-227: when a query was recorded the response is formatted and
handed to `UART_Transmit_Buffer(tx_temp_buffer, n)`, which takes the first `n`
bytes of the buffer, `n` being converted to `uint16_t`; then `Status` is
returned. -/
def respond (s : ScanState) : Outcome :=
  if s.check_request ≠ 0 then
    let t := responseOf s
    ⟨UART_COMMAND_PROCESS_OK, s.Params,
      [t.tx_temp_buffer.take ((t.ParamsPtr + 1) % 65536)]⟩
  else ⟨s.Status, s.Params, []⟩

/-- The call `Uart_Command_Process(data)` run with the global `Params`
holding `P`. -/
def Uart_Command_Process (scanF : List Char → Option Nat) (P : Params_t)
    (data : List Char) : Outcome :=
  respond
    (match strchr data '=' with
     | some str_find => tableLoop scanF data str_find.tail Uart_command_table 0 (initState P)
     | none => initState P)

/-! ## Notions used to state the properties

The definitions below are not part of the program.  They describe lines and
responses (fields, commas, names) and the states met in the proofs. -/

/-- A decimal `int` field as the wire format writes it: an optional `-`, then
one digit or more, the value within the range of `int`.  Gives the value, or
`none` for any other text. -/
def intLiteral (f : List Char) : Option Int :=
  let ds := if f.head? = some '-' then f.tail else f
  if ds ≠ [] ∧ ds.all isdigit = true then
    let v : Int :=
      if f.head? = some '-' then - ((digitsValue ds 0 : Nat) : Int)
      else ((digitsValue ds 0 : Nat) : Int)
    if INT_MIN ≤ v ∧ v ≤ INT_MAX then some v else none
  else none

/-- The text `rest` does not continue a run of digits. -/
def NoDigitHead (rest : List Char) : Prop := isdigit (rest.headD '\x00') = false

/-- The text that follows the `j`-th comma of `s` (`s` itself for `j = 0`),
`none` when `s` has fewer than `j` commas. -/
def afterCommas : Nat → List Char → Option (List Char)
  | 0, s => some s
  | j + 1, s => (strchr s ',').bind (fun t => afterCommas j t.tail)

/-- The store after an optional assignment of a word at offset `a`. -/
def storeOpt (p : Params_t) (a : Nat) (o : Option Nat) : Params_t :=
  match o with
  | some w => p.store a w
  | none => p

/-- The table entry advances `ParamsPtr` by 4 after each conversion. -/
def Stride4 (e : Uart_command) : Prop :=
  e.scanfmt.getD 1 '\x00' = 'd' ∨ e.scanfmt.getD 1 '\x00' = 'f'

/-- The entry `e` at index `i` is the first entry of the table whose name is a
prefix of `data`. -/
def FirstMatch (data : List Char) (i : Nat) (e : Uart_command) : Prop :=
  Uart_command_table[i]? = some e ∧ e.name <+: data ∧
    ∀ e' ∈ Uart_command_table.take i, ¬ e'.name <+: data

/-- The value text of a set command: the fields joined by commas. -/
def joinFields : List (List Char) → List Char
  | [] => []
  | [f] => f
  | f :: g :: fs => f ++ ',' :: joinFields (g :: fs)

/-- The text `f` is a well-formed number for the table entry `e`, of value the
word `w`: it holds no comma, and the conversion `e.scanfmt` of `sscanf` turns
it into `w`, alone as well as followed by a comma and further text. -/
def WellFormedField (scanF : List Char → Option Nat) (e : Uart_command) (f : List Char)
    (w : Nat) : Prop :=
  ',' ∉ f ∧ sscanf scanF f e.scanfmt = some w ∧
    ∀ rest, sscanf scanF (f ++ ',' :: rest) e.scanfmt = some w

/-- A run of `k` NUL bytes. -/
def zeros (k : Nat) : List Char := List.replicate k '\x00'

/-- The formatter state in which the buffer holds the text `t` followed by
NUL bytes up to its 64 bytes and `ParamsPtr` points behind the text. -/
def txOf (t : List Char) (chk : Nat) : TxState := ⟨t ++ zeros (64 - t.length), t.length, chk⟩

/-- The text that the formatting loop appends for an `int` entry with `n`
elements: the elements from index `i` on, `rem` of them, read from offset
`chk`, each but the one at index 0 after a comma, the last one followed by the
line ending. -/
def intText (P : Params_t) (n : Nat) : Nat → Nat → Nat → List Char
  | 0, _, _ => []
  | rem + 1, i, chk =>
    (if i ≠ 0 then [','] else []) ++ fmtInt (toInt (P.load chk)) ++
      (if (i : Int) = (n : Int) - 1 then ['\r', '\n'] else []) ++
      intText P n rem (i + 1) (chk + 4)

/-- Split of a text at its commas. -/
def splitOnComma : List Char → List (List Char)
  | [] => [[]]
  | c :: cs =>
    if c = ',' then [] :: splitOnComma cs
    else
      match splitOnComma cs with
      | [] => [[c]]
      | f :: fs => (c :: f) :: fs

/-- The name part of a response: the text before the first `=`. -/
def responseName (resp : List Char) : List Char := resp.takeWhile (fun c => c ≠ '=')

/-- The value fields of a response: the text after the first `=`, split at
the commas. -/
def responseFields (resp : List Char) : List (List Char) :=
  splitOnComma (resp.dropWhile (fun c => c ≠ '=')).tail

/-- The line resolves to a query: it holds `=`, some name of the table is a
prefix of it, and the character right after the first `=` is `?`. -/
def ResolvesToQuery (data : List Char) : Prop :=
  ∃ pre pv, data = pre ++ '=' :: pv ∧ '=' ∉ pre ∧
    (∃ e ∈ Uart_command_table, e.name <+: data) ∧ pv.headD '\x00' = '?'

/-- The text begins, after optional white space, with a decimal integer: an
optional sign, then a digit. -/
def startsWithInt (t : List Char) : Bool :=
  let s := t.dropWhile isspace
  let s' := if s.head? = some '-' ∨ s.head? = some '+' then s.tail else s
  isdigit (s'.headD '\x00')

/-- A member of `struct Params_t` as declared (lines 34-40): its name, the
conversion letter of its element type (`d` for `int`, `f` for `float`) and its
number of elements. -/
structure Member where
  name : List Char
  kind : Char
  count : Nat
deriving DecidableEq

/-- The members of `struct Params_t` in the order of the declaration. -/
def Params_t_members : List Member :=
  [⟨"RGB".toList, 'd', 3⟩, ⟨"State".toList, 'd', 1⟩, ⟨"Temper".toList, 'f', 1⟩,
    ⟨"XY".toList, 'f', 2⟩]

/-- The value of `offsetof` for the member called `n` in a declaration whose
members are `int` and `float` (4 bytes each, aligned on 4, so no padding): the
bytes taken by the members declared before it. -/
def offsetof : List Member → List Char → Nat
  | [], _ => 0
  | m :: ms, n => if m.name = n then 0 else 4 * m.count + offsetof ms n

/-- The value of `sizeof(struct Params_t)`. -/
def sizeof_Params_t : Nat := 4 * (Params_t_members.map Member.count).sum

/-! ## Facts about the C library model -/

theorem char_toNat_inj {a b : Char} (h : a.toNat = b.toNat) : a = b := by
  have := congrArg Char.ofNat h
  simpa using this

theorem strchr_eq_none {s : List Char} {c : Char} (h : c ∉ s) : strchr s c = none := by
  induction s with
  | nil => rfl
  | cons a s ih =>
    simp only [List.mem_cons, not_or] at h
    have hne : ¬ a = c := fun e => h.1 e.symm
    simp [strchr, hne, ih h.2]

theorem strchr_append {a b : List Char} {c : Char} (h : c ∉ a) :
    strchr (a ++ c :: b) c = some (c :: b) := by
  induction a with
  | nil => simp [strchr]
  | cons x a ih =>
    simp only [List.mem_cons, not_or] at h
    have hne : ¬ x = c := fun e => h.1 e.symm
    simp [strchr, hne, ih h.2]

theorem mem_split_first {s : List Char} {c : Char} (h : c ∈ s) :
    ∃ pre post, s = pre ++ c :: post ∧ c ∉ pre := by
  induction s with
  | nil => simp at h
  | cons a s ih =>
    by_cases hac : a = c
    · exact ⟨[], s, by simp [hac], by simp⟩
    · have hs : c ∈ s := by
        rcases List.mem_cons.1 h with h1 | h1
        · exact absurd h1.symm hac
        · exact h1
      obtain ⟨pre, post, hpp, hnp⟩ := ih hs
      refine ⟨a :: pre, post, by simp [hpp], ?_⟩
      simp only [List.mem_cons, not_or]
      exact ⟨fun e => hac e.symm, hnp⟩

theorem strncmp_eq_zero_iff (data name : List Char) (h : ∀ c ∈ name, c.toNat ≠ 0) :
    strncmp data name (strlen name) = 0 ↔ name <+: data := by
  induction name generalizing data with
  | nil => simp [strlen, strncmp]
  | cons b bs ih =>
    have hb : b.toNat ≠ 0 := h b (by simp)
    have hbs : ∀ c ∈ bs, c.toNat ≠ 0 := fun c hc => h c (by simp [hc])
    cases data with
    | nil =>
      simp only [strlen, List.length_cons, strncmp]
      constructor
      · intro h0; omega
      · intro hp; simp at hp
    | cons a as =>
      simp only [strlen, List.length_cons, strncmp]
      by_cases hab : a = b
      · subst hab
        simp only [if_true]
        have := ih as hbs
        simp only [strlen] at this
        rw [this]
        simp
      · simp only [hab, if_false]
        constructor
        · intro h0
          exact absurd (char_toNat_inj (by omega)) hab
        · intro hp
          rw [List.cons_prefix_cons] at hp
          exact absurd hp.1.symm hab

/-! ## Decimal text -/

theorem digitChar_spec (d : Nat) (h : d < 10) :
    isdigit (digitChar d) = true ∧ (digitChar d).toNat - 48 = d := by
  revert d
  decide

theorem digitsValue_append (a b : List Char) (acc : Nat) :
    digitsValue (a ++ b) acc = digitsValue b (digitsValue a acc) := by
  induction a generalizing acc with
  | nil => rfl
  | cons c cs ih => simp [digitsValue, ih]

theorem decDigits_spec (fuel n : Nat) (h : n < fuel) :
    (∀ c ∈ decDigits fuel n, isdigit c = true) ∧ decDigits fuel n ≠ [] ∧
      digitsValue (decDigits fuel n) 0 = n := by
  induction fuel generalizing n with
  | zero => omega
  | succ fuel ih =>
    unfold decDigits
    by_cases h10 : n < 10
    · have := digitChar_spec n h10
      simp [h10, digitsValue, this.1, this.2]
    · have hd := digitChar_spec (n % 10) (Nat.mod_lt _ (by norm_num))
      obtain ⟨h1, _, h3⟩ := ih (n / 10) (by omega)
      simp only [h10, if_false]
      refine ⟨?_, by simp, ?_⟩
      · intro c hc
        rcases List.mem_append.1 hc with hc | hc
        · exact h1 c hc
        · simp only [List.mem_singleton] at hc
          rw [hc]; exact hd.1
      · rw [digitsValue_append, h3]
        simp only [digitsValue, hd.2]
        omega

theorem decDigits_length (fuel n k : Nat) (h : n < fuel) (hk : n < 10 ^ (k + 1)) :
    (decDigits fuel n).length ≤ k + 1 := by
  induction fuel generalizing n k with
  | zero => omega
  | succ fuel ih =>
    unfold decDigits
    by_cases h10 : n < 10
    · simp [h10]
    · simp only [h10, if_false, List.length_append, List.length_singleton]
      cases k with
      | zero => simp at hk; omega
      | succ k =>
        have := ih (n / 10) k (by omega) (by
          rw [Nat.div_lt_iff_lt_mul (by norm_num)]
          rw [pow_succ] at hk
          exact hk)
        omega

theorem fmtNat_digits (n : Nat) : ∀ c ∈ fmtNat n, isdigit c = true :=
  (decDigits_spec (n + 1) n (Nat.lt_succ_self n)).1

theorem fmtNat_ne_nil (n : Nat) : fmtNat n ≠ [] :=
  (decDigits_spec (n + 1) n (Nat.lt_succ_self n)).2.1

theorem fmtNat_value (n : Nat) : digitsValue (fmtNat n) 0 = n :=
  (decDigits_spec (n + 1) n (Nat.lt_succ_self n)).2.2

theorem fmtNat_length (n k : Nat) (hk : n < 10 ^ (k + 1)) : (fmtNat n).length ≤ k + 1 :=
  decDigits_length (n + 1) n k (Nat.lt_succ_self n) hk

theorem isdigit_toNat {c : Char} (h : isdigit c = true) : 48 ≤ c.toNat ∧ c.toNat ≤ 57 := by
  simpa [isdigit] using h

theorem isdigit_not_space {c : Char} (h : isdigit c = true) : isspace c = false := by
  have hc := isdigit_toNat h
  simp only [isspace, Bool.or_eq_false_iff, decide_eq_false_iff_not]
  refine ⟨⟨⟨⟨⟨?_, ?_⟩, ?_⟩, ?_⟩, ?_⟩, ?_⟩ <;>
  · intro e
    rw [e] at hc
    revert hc
    decide

theorem isdigit_ne {c d : Char} (h : isdigit c = true) (hd : isdigit d = false) : c ≠ d := by
  intro e
  rw [e, hd] at h
  exact absurd h (by simp)

theorem takeWhile_digits_append {ds rest : List Char} (hds : ∀ c ∈ ds, isdigit c = true)
    (hr : NoDigitHead rest) : (ds ++ rest).takeWhile isdigit = ds := by
  induction ds with
  | nil =>
    cases rest with
    | nil => rfl
    | cons c cs =>
      have : isdigit c = false := hr
      simp [List.takeWhile, this]
  | cons d ds ih =>
    have hd : isdigit d = true := hds d (by simp)
    have := ih (fun c hc => hds c (by simp [hc]))
    simp [List.takeWhile, hd, this]

/-- The shape of a decimal `int` field. -/
theorem intLiteral_cases {f : List Char} {v : Int} (h : intLiteral f = some v) :
    ∃ ds, ds ≠ [] ∧ (∀ c ∈ ds, isdigit c = true) ∧ INT_MIN ≤ v ∧ v ≤ INT_MAX ∧
      ((f = ds ∧ v = ((digitsValue ds 0 : Nat) : Int)) ∨
        (f = '-' :: ds ∧ v = - ((digitsValue ds 0 : Nat) : Int))) := by
  unfold intLiteral at h
  by_cases hneg : f.head? = some '-'
  · simp only [hneg, if_true] at h
    split at h
    · rename_i hds
      split at h
      · rename_i hv
        simp only [Option.some.injEq] at h
        refine ⟨f.tail, hds.1, ?_, h ▸ hv.1, h ▸ hv.2, Or.inr ⟨?_, h.symm⟩⟩
        · intro c hc
          exact List.all_eq_true.1 hds.2 c hc
        · cases f with
          | nil => simp at hneg
          | cons a as => simp at hneg; simp [hneg]
      · simp at h
    · simp at h
  · simp only [hneg, if_false] at h
    split at h
    · rename_i hds
      split at h
      · rename_i hv
        simp only [Option.some.injEq] at h
        refine ⟨f, hds.1, ?_, h ▸ hv.1, h ▸ hv.2, Or.inl ⟨rfl, h.symm⟩⟩
        intro c hc
        exact List.all_eq_true.1 hds.2 c hc
      · simp at h
    · simp at h

theorem scanInt_digits {ds rest : List Char} (hne : ds ≠ []) (hds : ∀ c ∈ ds, isdigit c = true)
    (hr : NoDigitHead rest) (hmax : ((digitsValue ds 0 : Nat) : Int) ≤ INT_MAX) :
    scanInt (ds ++ rest) = some ((digitsValue ds 0 : Nat) : Int) := by
  cases ds with
  | nil => exact absurd rfl hne
  | cons d ds' =>
    have hd : isdigit d = true := hds d (by simp)
    have hsp : isspace d = false := isdigit_not_space hd
    have hm : d ≠ '-' := isdigit_ne hd (by decide)
    have hp : d ≠ '+' := isdigit_ne hd (by decide)
    have htw := takeWhile_digits_append hds hr
    have hmin : ¬ ((digitsValue (d :: ds') 0 : Nat) : Int) < INT_MIN := by
      unfold INT_MIN; omega
    have hmax' : ¬ INT_MAX < ((digitsValue (d :: ds') 0 : Nat) : Int) := by omega
    unfold scanInt
    simp only [List.cons_append, List.dropWhile_cons, hsp, Bool.false_eq_true, if_false,
      List.head?_cons, Option.some.injEq, hm, hp, or_self, decide_False]
    rw [← List.cons_append, htw]
    simp [hmin, hmax']

theorem scanInt_neg_digits {ds rest : List Char} (hne : ds ≠ [])
    (hds : ∀ c ∈ ds, isdigit c = true) (hr : NoDigitHead rest)
    (hmin : INT_MIN ≤ - ((digitsValue ds 0 : Nat) : Int)) :
    scanInt ('-' :: ds ++ rest) = some (- ((digitsValue ds 0 : Nat) : Int)) := by
  have hsp : isspace '-' = false := by decide
  have htw := takeWhile_digits_append hds hr
  have hmin' : ¬ - ((digitsValue ds 0 : Nat) : Int) < INT_MIN := by omega
  have hmax' : ¬ INT_MAX < - ((digitsValue ds 0 : Nat) : Int) := by
    unfold INT_MAX; omega
  unfold scanInt
  simp only [List.cons_append, List.dropWhile_cons, hsp, Bool.false_eq_true, if_false,
    List.head?_cons, true_or, if_true, List.tail_cons, htw, decide_True]
  simp [hne, hmin', hmax']

/-- The conversion `%d` reads back a decimal `int` field, whatever non-digit
text follows it. -/
theorem scanInt_of_intLiteral {f rest : List Char} {v : Int} (h : intLiteral f = some v)
    (hr : NoDigitHead rest) : scanInt (f ++ rest) = some v := by
  obtain ⟨ds, hne, hds, h1, h2, hc | hc⟩ := intLiteral_cases h
  · rw [hc.1, hc.2]
    exact scanInt_digits hne hds hr (hc.2 ▸ h2)
  · rw [hc.1, hc.2]
    exact scanInt_neg_digits hne hds hr (hc.2 ▸ h1)

theorem intLiteral_no_comma {f : List Char} {v : Int} (h : intLiteral f = some v) :
    ',' ∉ f := by
  obtain ⟨ds, _, hds, _, _, hc | hc⟩ := intLiteral_cases h
  · rw [hc.1]
    intro hm
    exact absurd (hds _ hm) (by decide)
  · rw [hc.1]
    intro hm
    rcases List.mem_cons.1 hm with e | hm
    · exact absurd e (by decide)
    · exact absurd (hds _ hm) (by decide)

theorem intLiteral_head {f : List Char} {v : Int} (h : intLiteral f = some v) (rest : List Char) :
    (f ++ rest).headD '\x00' ≠ '?' := by
  obtain ⟨ds, hne, hds, _, _, hc | hc⟩ := intLiteral_cases h
  · rw [hc.1]
    cases ds with
    | nil => exact absurd rfl hne
    | cons d ds' =>
      simp only [List.cons_append, List.headD_cons]
      exact isdigit_ne (hds d (by simp)) (by decide)
  · rw [hc.1]
    simp only [List.cons_append, List.headD_cons]
    decide

theorem fmtInt_literal {v : Int} (h1 : INT_MIN ≤ v) (h2 : v ≤ INT_MAX) :
    intLiteral (fmtInt v) = some v := by
  have hne := fmtNat_ne_nil v.natAbs
  have hds := fmtNat_digits v.natAbs
  have hval := fmtNat_value v.natAbs
  have hall : (fmtNat v.natAbs).all isdigit = true := List.all_eq_true.2 hds
  unfold fmtInt intLiteral
  by_cases hv : v < 0
  · simp only [hv, if_true, List.head?_cons, List.tail_cons, hval]
    have : (-((v.natAbs : Nat) : Int)) = v := by omega
    rw [if_pos ⟨hne, hall⟩, this]
    exact if_pos ⟨h1, h2⟩
  · have hhead : ¬ (fmtNat v.natAbs).head? = some '-' := by
      intro e
      cases hf : fmtNat v.natAbs with
      | nil => exact hne hf
      | cons d ds =>
        rw [hf] at e
        simp only [List.head?_cons, Option.some.injEq] at e
        have := hds d (by rw [hf]; simp)
        rw [e] at this
        exact absurd this (by decide)
    simp only [hv, if_false, hhead, hval]
    have : ((v.natAbs : Nat) : Int) = v := by omega
    rw [if_pos ⟨hne, hall⟩, this]
    exact if_pos ⟨h1, h2⟩

theorem toInt_toWord {v : Int} (h1 : INT_MIN ≤ v) (h2 : v ≤ INT_MAX) : toInt (toWord v) = v := by
  unfold INT_MIN at h1
  unfold INT_MAX at h2
  unfold toInt toWord
  have hpos : (0 : Int) ≤ v % 2 ^ 32 := Int.emod_nonneg _ (by norm_num)
  have hlt : v % 2 ^ 32 < 2 ^ 32 := Int.emod_lt_of_pos _ (by norm_num)
  have hcast : (((v % 2 ^ 32).toNat % 2 ^ 32 : Nat) : Int) = v % 2 ^ 32 := by
    have : (v % 2 ^ 32).toNat < 2 ^ 32 := by omega
    rw [Nat.mod_eq_of_lt this]
    omega
  by_cases hv : 0 ≤ v
  · have e : v % 2 ^ 32 = v := Int.emod_eq_of_lt hv (by omega)
    have hnat : (v % 2 ^ 32).toNat % 2 ^ 32 < 2 ^ 31 := by omega
    rw [if_pos hnat, hcast, e]
  · have e : v % 2 ^ 32 = v + 2 ^ 32 := by
      have := Int.emod_emod_of_dvd v (dvd_refl (2 ^ 32 : Int))
      have h3 : (v + 2 ^ 32) % 2 ^ 32 = v % 2 ^ 32 := by simp
      rw [← h3]
      exact Int.emod_eq_of_lt (by omega) (by omega)
    have hnat : ¬ (v % 2 ^ 32).toNat % 2 ^ 32 < 2 ^ 31 := by omega
    rw [if_neg hnat, hcast, e]
    omega

theorem toInt_range (w : Nat) : INT_MIN ≤ toInt w ∧ toInt w ≤ INT_MAX := by
  unfold toInt INT_MIN INT_MAX
  have : w % 2 ^ 32 < 2 ^ 32 := Nat.mod_lt _ (by norm_num)
  split <;> omega

theorem fmtInt_length (w : Nat) : (fmtInt (toInt w)).length ≤ 11 := by
  obtain ⟨h1, h2⟩ := toInt_range w
  unfold INT_MIN at h1
  unfold INT_MAX at h2
  have hn : (toInt w).natAbs < 10 ^ (9 + 1) := by omega
  have := fmtNat_length (toInt w).natAbs 9 hn
  unfold fmtInt
  split
  · simp only [List.length_cons]; omega
  · omega

theorem fmtInt_ne_nil (v : Int) : fmtInt v ≠ [] := by
  unfold fmtInt
  split
  · simp
  · exact fmtNat_ne_nil _

/-! ## The parameter store and the set loop -/

theorem offset_cases {a : Nat} (h : a % 4 = 0 ∧ a < 28) :
    a = 0 ∨ a = 4 ∨ a = 8 ∨ a = 12 ∨ a = 16 ∨ a = 20 ∨ a = 24 := by
  omega

theorem store_outside (p : Params_t) (a w : Nat) (h : ¬ (a % 4 = 0 ∧ a < 28)) :
    p.store a w = p := by
  unfold Params_t.store
  split_ifs <;> first | rfl | omega

theorem load_store_same (p : Params_t) (a w : Nat) (h : a % 4 = 0 ∧ a < 28) :
    (p.store a w).load a = w := by
  rcases offset_cases h with rfl | rfl | rfl | rfl | rfl | rfl | rfl <;> rfl

theorem load_outside (p : Params_t) (b : Nat) (h : ¬ (b % 4 = 0 ∧ b < 28)) : p.load b = 0 := by
  unfold Params_t.load
  split_ifs <;> first | rfl | omega

theorem load_store_ne (p : Params_t) (a b w : Nat) (h : a ≠ b) :
    (p.store a w).load b = p.load b := by
  by_cases ha : a % 4 = 0 ∧ a < 28
  · by_cases hb : b % 4 = 0 ∧ b < 28
    · rcases offset_cases ha with rfl | rfl | rfl | rfl | rfl | rfl | rfl <;>
        rcases offset_cases hb with rfl | rfl | rfl | rfl | rfl | rfl | rfl <;>
        first | rfl | exact absurd rfl h
    · rw [load_outside _ b hb, load_outside _ b hb]
  · rw [store_outside p a w ha]

theorem load_storeOpt_ne (p : Params_t) (a b : Nat) (o : Option Nat) (h : a ≠ b) :
    (storeOpt p a o).load b = p.load b := by
  cases o with
  | none => rfl
  | some w => exact load_store_ne p a b w h

theorem Params_ext {p q : Params_t} (h : ∀ a, p.load a = q.load a) : p = q := by
  have h0 := h 0
  have h4 := h 4
  have h8 := h 8
  have h12 := h 12
  have h16 := h 16
  have h20 := h 20
  have h24 := h 24
  simp only [Params_t.load] at h0 h4 h8 h12 h16 h20 h24
  cases p; cases q
  simp_all

theorem setLoop_step (scanF : List Char → Option Nat) (e : Uart_command) (hs : Stride4 e)
    (rem j : Nat) (hj : j ≠ 0) (pv : List Char) (ptr : Nat) (p : Params_t) :
    setLoop scanF e (rem + 1) j pv ptr p =
      match strchr pv ',' with
      | none => (p, j)
      | some t =>
        setLoop scanF e rem (j + 1) t.tail (ptr + 4)
          (storeOpt p ptr (sscanf scanF t.tail e.scanfmt)) := by
  have hptr : (if e.scanfmt.getD 1 '\x00' = 'd' then ptr + 4
      else if e.scanfmt.getD 1 '\x00' = 'f' then ptr + 4 else ptr) = ptr + 4 := by
    split_ifs with h1 h2
    · rfl
    · rfl
    · rcases hs with h | h <;> contradiction
  cases hc : strchr pv ',' with
  | none => simp [setLoop, hj, hc]
  | some t =>
    simp only [setLoop, hj, hc, ne_eq, not_false_eq_true, if_true, Option.map_some', hptr]
    rfl

theorem setLoop_first (scanF : List Char → Option Nat) (e : Uart_command) (hs : Stride4 e)
    (rem : Nat) (pv : List Char) (ptr : Nat) (p : Params_t) :
    setLoop scanF e (rem + 1) 0 pv ptr p =
      setLoop scanF e rem 1 pv (ptr + 4) (storeOpt p ptr (sscanf scanF pv e.scanfmt)) := by
  have hptr : (if e.scanfmt.getD 1 '\x00' = 'd' then ptr + 4
      else if e.scanfmt.getD 1 '\x00' = 'f' then ptr + 4 else ptr) = ptr + 4 := by
    split_ifs with h1 h2
    · rfl
    · rfl
    · rcases hs with h | h <;> contradiction
  simp only [setLoop, ne_eq, not_true_eq_false, if_false, hptr]
  rfl

theorem setLoop_tail_frame (scanF : List Char → Option Nat) (e : Uart_command) (hs : Stride4 e)
    (rem j : Nat) (hj : j ≠ 0) (pv : List Char) (ptr : Nat) (p : Params_t) (a : Nat)
    (ha : ∀ m, m < rem → a ≠ ptr + 4 * m) :
    (setLoop scanF e rem j pv ptr p).1.load a = p.load a := by
  induction rem generalizing j pv ptr p with
  | zero => rfl
  | succ rem ih =>
    rw [setLoop_step scanF e hs rem j hj]
    cases hc : strchr pv ',' with
    | none => rfl
    | some t =>
      simp only []
      rw [ih (j + 1) (by omega) t.tail (ptr + 4) _ (fun m hm => by
        have := ha (m + 1) (by omega); omega)]
      exact load_storeOpt_ne _ _ _ _ (by have := ha 0 (by omega); omega)

theorem setLoop_tail_elem (scanF : List Char → Option Nat) (e : Uart_command) (hs : Stride4 e)
    (rem j : Nat) (hj : j ≠ 0) (pv : List Char) (ptr : Nat) (p : Params_t) (m : Nat)
    (hm : m < rem) :
    (setLoop scanF e rem j pv ptr p).1.load (ptr + 4 * m) =
      (storeOpt p (ptr + 4 * m)
        ((afterCommas (m + 1) pv).bind (fun t => sscanf scanF t e.scanfmt))).load
        (ptr + 4 * m) := by
  induction rem generalizing j pv ptr p m with
  | zero => omega
  | succ rem ih =>
    rw [setLoop_step scanF e hs rem j hj]
    cases hc : strchr pv ',' with
    | none => simp [afterCommas, hc, storeOpt]
    | some t =>
      simp only []
      cases m with
      | zero =>
        rw [setLoop_tail_frame scanF e hs rem (j + 1) (by omega) t.tail (ptr + 4) _
          (ptr + 4 * 0) (fun m _ => by omega)]
        simp [afterCommas, hc]
      | succ m =>
        have := ih (j + 1) (by omega) t.tail (ptr + 4)
          (storeOpt p ptr (sscanf scanF t.tail e.scanfmt)) m (by omega)
        have e1 : ptr + 4 * (m + 1) = ptr + 4 + 4 * m := by omega
        have hac : afterCommas (m + 1 + 1) pv = afterCommas (m + 1) t.tail := by
          simp [afterCommas, hc]
        rw [e1, this, hac]
        generalize ((afterCommas (m + 1) t.tail).bind fun t => sscanf scanF t e.scanfmt) = o
        cases o with
        | none =>
          show (storeOpt p ptr _).load (ptr + 4 + 4 * m) = p.load (ptr + 4 + 4 * m)
          exact load_storeOpt_ne _ _ _ _ (by omega)
        | some w =>
          show ((storeOpt p ptr _).store (ptr + 4 + 4 * m) w).load (ptr + 4 + 4 * m) =
            (p.store (ptr + 4 + 4 * m) w).load (ptr + 4 + 4 * m)
          by_cases hv : (ptr + 4 + 4 * m) % 4 = 0 ∧ ptr + 4 + 4 * m < 28
          · rw [load_store_same _ _ _ hv, load_store_same _ _ _ hv]
          · rw [store_outside _ _ _ hv, store_outside _ _ _ hv]
            exact load_storeOpt_ne _ _ _ _ (by omega)

theorem setLoop_tail_count (scanF : List Char → Option Nat) (e : Uart_command) (hs : Stride4 e)
    (rem j : Nat) (hj : j ≠ 0) (pv : List Char) (ptr : Nat) (p : Params_t) :
    (setLoop scanF e rem j pv ptr p).2 ≤ j + rem ∧
      ((setLoop scanF e rem j pv ptr p).2 = j + rem ↔ (afterCommas rem pv).isSome = true) := by
  induction rem generalizing j pv ptr p with
  | zero => simp [setLoop, afterCommas]
  | succ rem ih =>
    rw [setLoop_step scanF e hs rem j hj]
    cases hc : strchr pv ',' with
    | none =>
      simp only [afterCommas, hc, Option.none_bind, Option.isSome_none]
      constructor
      · omega
      · constructor
        · intro h; omega
        · intro h; simp at h
    | some t =>
      simp only [afterCommas, hc, Option.some_bind]
      have := ih (j + 1) (by omega) t.tail (ptr + 4)
        (storeOpt p ptr (sscanf scanF t.tail e.scanfmt))
      constructor
      · omega
      · rw [← this.2]
        constructor <;> intro h <;> omega

theorem load_storeOpt_twice (p : Params_t) (a b : Nat) (x y : Option Nat) (h : a ≠ b) :
    (storeOpt (storeOpt p a x) b y).load b = (storeOpt p b y).load b := by
  cases y with
  | none =>
    show (storeOpt p a x).load b = p.load b
    exact load_storeOpt_ne _ _ _ _ h
  | some w =>
    show ((storeOpt p a x).store b w).load b = (p.store b w).load b
    by_cases hv : b % 4 = 0 ∧ b < 28
    · rw [load_store_same _ _ _ hv, load_store_same _ _ _ hv]
    · rw [store_outside _ _ _ hv, store_outside _ _ _ hv]
      exact load_storeOpt_ne _ _ _ _ h

/-- Frame of the set loop: a word that is none of the `n` elements keeps its
value. -/
theorem setLoop_frame (scanF : List Char → Option Nat) (e : Uart_command) (hs : Stride4 e)
    (n : Nat) (pv : List Char) (ptr : Nat) (p : Params_t) (a : Nat)
    (ha : ∀ m, m < n → a ≠ ptr + 4 * m) :
    (setLoop scanF e n 0 pv ptr p).1.load a = p.load a := by
  cases n with
  | zero => rfl
  | succ n =>
    rw [setLoop_first scanF e hs,
      setLoop_tail_frame scanF e hs n 1 (by omega) pv (ptr + 4) _ a (fun m hm => by
        have := ha (m + 1) (by omega); omega)]
    exact load_storeOpt_ne _ _ _ _ (by have := ha 0 (by omega); omega)

/-- Effect of the set loop on element `m`: it receives the conversion of the
text after the `m`-th comma when there is such a text and it converts, and
keeps its value otherwise. -/
theorem setLoop_elem (scanF : List Char → Option Nat) (e : Uart_command) (hs : Stride4 e)
    (n : Nat) (pv : List Char) (ptr : Nat) (p : Params_t) (m : Nat) (hm : m < n) :
    (setLoop scanF e n 0 pv ptr p).1.load (ptr + 4 * m) =
      (storeOpt p (ptr + 4 * m)
        ((afterCommas m pv).bind (fun t => sscanf scanF t e.scanfmt))).load (ptr + 4 * m) := by
  cases n with
  | zero => omega
  | succ n =>
    rw [setLoop_first scanF e hs]
    cases m with
    | zero =>
      rw [setLoop_tail_frame scanF e hs n 1 (by omega) pv (ptr + 4) _ (ptr + 4 * 0)
        (fun m _ => by omega)]
      simp [afterCommas]
    | succ m =>
      have e1 : ptr + 4 * (m + 1) = ptr + 4 + 4 * m := by omega
      rw [e1, setLoop_tail_elem scanF e hs n 1 (by omega) pv (ptr + 4) _ m (by omega)]
      exact load_storeOpt_twice _ _ _ _ _ (by omega)

/-- The set loop runs to the end exactly when the text has a comma for every
element after the first. -/
theorem setLoop_count (scanF : List Char → Option Nat) (e : Uart_command) (hs : Stride4 e)
    (n : Nat) (pv : List Char) (ptr : Nat) (p : Params_t) :
    (setLoop scanF e n 0 pv ptr p).2 = n ↔ n = 0 ∨ (afterCommas (n - 1) pv).isSome = true := by
  cases n with
  | zero => simp [setLoop]
  | succ n =>
    rw [setLoop_first scanF e hs]
    have := (setLoop_tail_count scanF e hs n 1 (by omega) pv (ptr + 4)
      (storeOpt p ptr (sscanf scanF pv e.scanfmt))).2
    simp only [Nat.add_sub_cancel, Nat.succ_ne_zero, false_or]
    rw [← this]
    constructor <;> intro h <;> omega

/-! ## The table scan -/

theorem tableLoop_first (scanF : List Char → Option Nat) (data pv : List Char)
    (tbl : List Uart_command) (hnul : ∀ e ∈ tbl, ∀ c ∈ e.name, c.toNat ≠ 0)
    (i0 k : Nat) (e : Uart_command) (s : ScanState) (hk : tbl[k]? = some e)
    (hp : e.name <+: data)
    (hfirst : ∀ j e', j < k → tbl[j]? = some e' → ¬ e'.name <+: data) :
    tableLoop scanF data pv tbl i0 s = commandBody scanF e (i0 + k) pv s := by
  induction tbl generalizing i0 k with
  | nil => simp at hk
  | cons x rest ih =>
    have hx := strncmp_eq_zero_iff data x.name (hnul x (by simp))
    cases k with
    | zero =>
      simp only [List.getElem?_cons_zero, Option.some.injEq] at hk
      subst hk
      simp only [tableLoop, hx.2 hp, if_true, Nat.add_zero]
    | succ k =>
      have hnx : ¬ x.name <+: data := hfirst 0 x (by omega) (by simp)
      have hne : ¬ strncmp data x.name (strlen x.name) = 0 := fun h0 => hnx (hx.1 h0)
      simp only [tableLoop, hne, if_false]
      rw [ih (fun e he => hnul e (by simp [he])) (i0 + 1) k (by simpa using hk)
        (fun j e' hj hje => hfirst (j + 1) e' (by omega) (by simpa using hje))]
      congr 1
      omega

theorem tableLoop_none (scanF : List Char → Option Nat) (data pv : List Char)
    (tbl : List Uart_command) (hnul : ∀ e ∈ tbl, ∀ c ∈ e.name, c.toNat ≠ 0)
    (i0 : Nat) (s : ScanState) (hno : ∀ e ∈ tbl, ¬ e.name <+: data) :
    tableLoop scanF data pv tbl i0 s = s := by
  induction tbl generalizing i0 with
  | nil => rfl
  | cons x rest ih =>
    have hx := strncmp_eq_zero_iff data x.name (hnul x (by simp))
    have hne : ¬ strncmp data x.name (strlen x.name) = 0 :=
      fun h0 => hno x (by simp) (hx.1 h0)
    simp only [tableLoop, hne, if_false]
    exact ih (fun e he => hnul e (by simp [he])) (i0 + 1) (fun e he => hno e (by simp [he]))

theorem table_names_no_nul : ∀ e ∈ Uart_command_table, ∀ c ∈ e.name, c.toNat ≠ 0 := by
  decide

theorem table_names_no_eq : ∀ e ∈ Uart_command_table, '=' ∉ e.name := by
  decide

theorem table_stride : ∀ e ∈ Uart_command_table, Stride4 e := by
  intro e he
  simp only [Uart_command_table, List.mem_cons, List.mem_singleton, List.not_mem_nil,
    or_false] at he
  rcases he with rfl | rfl | rfl | rfl
  · exact Or.inl rfl
  · exact Or.inl rfl
  · exact Or.inr rfl
  · exact Or.inr rfl

theorem firstMatch_index {data : List Char} {i : Nat} {e : Uart_command}
    (h : FirstMatch data i e) : e ∈ Uart_command_table ∧ i < 4 := by
  obtain ⟨h1, _, _⟩ := h
  have := List.getElem?_eq_some_iff.1 h1
  obtain ⟨hi, he⟩ := this
  exact ⟨he ▸ List.getElem_mem _, hi⟩

theorem process_firstMatch (scanF : List Char → Option Nat) (P : Params_t)
    (pre pv : List Char) (i : Nat) (e : Uart_command) (hpre : '=' ∉ pre)
    (hm : FirstMatch (pre ++ '=' :: pv) i e) :
    Uart_Command_Process scanF P (pre ++ '=' :: pv) =
      respond (commandBody scanF e i pv (initState P)) := by
  unfold Uart_Command_Process
  rw [strchr_append hpre]
  simp only [List.tail_cons]
  rw [tableLoop_first scanF _ pv Uart_command_table table_names_no_nul 0 i e _ hm.1 hm.2.1
    (fun j e' hj hje => hm.2.2 e' (List.mem_iff_getElem?.2
      ⟨j, by rw [List.getElem?_take_of_lt hj]; exact hje⟩))]
  simp [initState]

theorem process_noMatch (scanF : List Char → Option Nat) (P : Params_t)
    (data : List Char) (hno : ∀ e ∈ Uart_command_table, ¬ e.name <+: data) :
    Uart_Command_Process scanF P data = ⟨UART_COMMAND_PROCESS_ERROR, P, []⟩ := by
  unfold Uart_Command_Process
  cases strchr data '=' with
  | none => rfl
  | some t =>
    simp only []
    rw [tableLoop_none scanF data _ Uart_command_table table_names_no_nul 0 _ hno]
    rfl

/-- A set command: the outcome in terms of the set loop. -/
theorem process_set (scanF : List Char → Option Nat) (P : Params_t)
    (pre pv : List Char) (i : Nat) (e : Uart_command) (hpre : '=' ∉ pre)
    (hm : FirstMatch (pre ++ '=' :: pv) i e) (hq : pv.headD '\x00' ≠ '?') :
    Uart_Command_Process scanF P (pre ++ '=' :: pv) =
      ⟨if (setLoop scanF e e.para_num 0 pv e.paraOffset P).2 = e.para_num
          then UART_COMMAND_PROCESS_OK else UART_COMMAND_PROCESS_ERROR,
        (setLoop scanF e e.para_num 0 pv e.paraOffset P).1, []⟩ := by
  rw [process_firstMatch scanF P pre pv i e hpre hm]
  unfold commandBody
  rw [if_pos hq]
  simp [respond, initState]

/-- A query: the outcome in terms of the response formatter. -/
theorem process_query (scanF : List Char → Option Nat) (P : Params_t)
    (pre pv : List Char) (i : Nat) (e : Uart_command) (hpre : '=' ∉ pre)
    (hm : FirstMatch (pre ++ '=' :: pv) i e) (hq : pv.headD '\x00' = '?') :
    Uart_Command_Process scanF P (pre ++ '=' :: pv) =
      ⟨UART_COMMAND_PROCESS_OK, P,
        [(formatResponse e P e.paraOffset).tx_temp_buffer.take
          (((formatResponse e P e.paraOffset).ParamsPtr + 1) % 65536)]⟩ := by
  rw [process_firstMatch scanF P pre pv i e hpre hm]
  unfold commandBody
  rw [if_neg (not_not.2 hq)]
  simp [respond, initState, responseOf, hm.1]

theorem exists_firstMatch {data : List Char}
    (h : ∃ e ∈ Uart_command_table, e.name <+: data) : ∃ i e, FirstMatch data i e := by
  classical
  have hex : ∃ j : Nat, ∃ e' : Uart_command, Uart_command_table[j]? = some e' ∧ e'.name <+: data := by
    obtain ⟨e, he, hp⟩ := h
    obtain ⟨j, hj, hje⟩ := List.getElem_of_mem he
    exact ⟨j, e, by rw [List.getElem?_eq_getElem hj, hje], hp⟩
  obtain ⟨e', h1, h2⟩ := Nat.find_spec hex
  refine ⟨Nat.find hex, e', h1, h2, ?_⟩
  intro e'' hmem hp
  obtain ⟨j, hj⟩ := List.mem_iff_getElem?.1 hmem
  have hlt : j < Nat.find hex := by
    by_contra hge
    rw [List.getElem?_take_eq_none (Nat.le_of_not_lt hge)] at hj
    exact absurd hj (by simp)
  rw [List.getElem?_take_of_lt hlt] at hj
  exact Nat.find_min hex hlt ⟨e'', hj, hp⟩

theorem prefix_before {l a b : List Char} {c : Char} (hc : c ∉ l) (h : l <+: a ++ c :: b) :
    l <+: a := by
  induction l generalizing a with
  | nil => exact List.nil_prefix
  | cons x l ih =>
    simp only [List.mem_cons, not_or] at hc
    cases a with
    | nil =>
      simp only [List.nil_append, List.cons_prefix_cons] at h
      exact absurd h.1.symm hc.1
    | cons y a =>
      simp only [List.cons_append, List.cons_prefix_cons] at h
      rw [List.cons_prefix_cons]
      exact ⟨h.1, ih hc.2 h.2⟩

/-! ## Set commands -/

theorem table_offsets_valid : ∀ e ∈ Uart_command_table, ∀ j, j < e.para_num →
    (e.paraOffset + 4 * j) % 4 = 0 ∧ e.paraOffset + 4 * j < 28 := by
  intro e he j hj
  simp only [Uart_command_table, List.mem_cons, List.mem_singleton, List.not_mem_nil,
    or_false] at he
  rcases he with rfl | rfl | rfl | rfl <;> simp only at hj ⊢ <;> omega

theorem table_para_num_pos : ∀ e ∈ Uart_command_table, 1 ≤ e.para_num := by
  decide

theorem firstMatch_name (e : Uart_command) (he : e ∈ Uart_command_table) (rest : List Char) :
    ∃ i, FirstMatch (e.name ++ rest) i e := by
  simp only [Uart_command_table, List.mem_cons, List.mem_singleton, List.not_mem_nil,
    or_false] at he
  rcases he with rfl | rfl | rfl | rfl
  · exact ⟨0, rfl, List.prefix_append _ _, by simp⟩
  · exact ⟨1, rfl, List.prefix_append _ _, by simp [Uart_command_table]⟩
  · exact ⟨2, rfl, List.prefix_append _ _, by simp [Uart_command_table]⟩
  · exact ⟨3, rfl, List.prefix_append _ _, by simp [Uart_command_table]⟩

/-- Outcome of a set command, element by element. -/
theorem process_set_spec (scanF : List Char → Option Nat) (P : Params_t)
    (pre pv : List Char) (i : Nat) (e : Uart_command) (hpre : '=' ∉ pre)
    (hm : FirstMatch (pre ++ '=' :: pv) i e) (hq : pv.headD '\x00' ≠ '?') :
    ((Uart_Command_Process scanF P (pre ++ '=' :: pv)).Status = UART_COMMAND_PROCESS_OK ↔
        (afterCommas (e.para_num - 1) pv).isSome = true) ∧
      ((Uart_Command_Process scanF P (pre ++ '=' :: pv)).Status = UART_COMMAND_PROCESS_OK ∨
        (Uart_Command_Process scanF P (pre ++ '=' :: pv)).Status =
          UART_COMMAND_PROCESS_ERROR) ∧
      (Uart_Command_Process scanF P (pre ++ '=' :: pv)).sent = [] ∧
      (∀ j, j < e.para_num →
        (Uart_Command_Process scanF P (pre ++ '=' :: pv)).Params.load (e.paraOffset + 4 * j) =
          match (afterCommas j pv).bind (fun t => sscanf scanF t e.scanfmt) with
          | some w => w
          | none => P.load (e.paraOffset + 4 * j)) ∧
      (∀ a, (∀ j, j < e.para_num → a ≠ e.paraOffset + 4 * j) →
        (Uart_Command_Process scanF P (pre ++ '=' :: pv)).Params.load a = P.load a) := by
  have he := (firstMatch_index hm).1
  have hs := table_stride e he
  have hn := table_para_num_pos e he
  rw [process_set scanF P pre pv i e hpre hm hq]
  have hcount := setLoop_count scanF e hs e.para_num pv e.paraOffset P
  have hn0 : ¬ e.para_num = 0 := by omega
  simp only [hn0, false_or] at hcount
  refine ⟨?_, ?_, rfl, ?_, ?_⟩
  · rw [← hcount]
    simp only []
    split_ifs with h
    · simp [h]
    · simp [h, UART_COMMAND_PROCESS_OK, UART_COMMAND_PROCESS_ERROR]
  · simp only []
    split_ifs <;> simp
  · intro j hj
    simp only []
    rw [setLoop_elem scanF e hs e.para_num pv e.paraOffset P j hj]
    cases (afterCommas j pv).bind (fun t => sscanf scanF t e.scanfmt) with
    | none => rfl
    | some w => exact load_store_same _ _ _ (table_offsets_valid e he j hj)
  · intro a ha
    exact setLoop_frame scanF e hs e.para_num pv e.paraOffset P a ha

theorem joinFields_cons (f : List Char) (fs : List (List Char)) :
    joinFields (f :: fs) = f ++ (if fs = [] then [] else ',' :: joinFields fs) := by
  cases fs with
  | nil => simp [joinFields]
  | cons g fs => simp [joinFields]

theorem afterCommas_join (fs : List (List Char)) (trailing : List Char)
    (hfs : ∀ f ∈ fs, ',' ∉ f) (j : Nat) (hj : j < fs.length) :
    afterCommas j (joinFields fs ++ trailing) = some (joinFields (fs.drop j) ++ trailing) := by
  induction j generalizing fs with
  | zero => rfl
  | succ j ih =>
    match fs, hj, hfs with
    | [f], hj, _ => simp at hj
    | f :: g :: fs', hj, hfs =>
      have hf : ',' ∉ f := hfs f (by simp)
      simp only [joinFields, List.append_assoc, List.cons_append, afterCommas,
        strchr_append hf, Option.some_bind, List.tail_cons, List.drop_succ_cons]
      exact ih (g :: fs') (fun x hx => hfs x (by simp [hx])) (by simpa using hj)

theorem afterCommas_join_none (fs : List (List Char)) (hfs : ∀ f ∈ fs, ',' ∉ f) (j : Nat)
    (hj : fs.length ≤ j) (hj1 : 1 ≤ j) : afterCommas j (joinFields fs) = none := by
  induction j generalizing fs with
  | zero => omega
  | succ j ih =>
    match fs, hj, hfs with
    | [], _, _ => simp [joinFields, afterCommas, strchr]
    | [f], _, hfs =>
      have hf : ',' ∉ f := hfs f (by simp)
      simp [joinFields, afterCommas, strchr_eq_none hf]
    | f :: g :: fs', hj, hfs =>
      have hf : ',' ∉ f := hfs f (by simp)
      simp only [joinFields, afterCommas, strchr_append hf, Option.some_bind, List.tail_cons]
      exact ih (g :: fs') (fun x hx => hfs x (by simp [hx])) (by simpa using hj)
        (by simp at hj; omega)

theorem wellFormed_of_intLiteral (scanF : List Char → Option Nat) (e : Uart_command)
    (hd : e.scanfmt = ['%', 'd']) {f : List Char} {v : Int} (h : intLiteral f = some v) :
    WellFormedField scanF e f (toWord v) := by
  refine ⟨intLiteral_no_comma h, ?_, ?_⟩
  · have : scanInt (f ++ []) = some v :=
      scanInt_of_intLiteral h (by unfold NoDigitHead; decide)
    rw [List.append_nil] at this
    simp [sscanf, hd, this]
  · intro rest
    have : scanInt (f ++ ',' :: rest) = some v :=
      scanInt_of_intLiteral h (by show isdigit ',' = false; decide)
    simp [sscanf, hd, this]

theorem noDigitHead_nil : NoDigitHead [] := by
  unfold NoDigitHead
  decide

theorem noDigitHead_comma (rest : List Char) : NoDigitHead (',' :: rest) := by
  show isdigit ',' = false
  decide

theorem outcome_ext {o1 o2 : Outcome} (h1 : o1.Status = o2.Status) (h2 : o1.Params = o2.Params)
    (h3 : o1.sent = o2.sent) : o1 = o2 := by
  cases o1; cases o2
  simp only [Outcome.mk.injEq]
  exact ⟨h1, h2, h3⟩

/-- A set command of an `int` entry whose value text starts with at least
`para_num` decimal fields: every element receives its field. -/
theorem set_int_fields (scanF : List Char → Option Nat) (P : Params_t) (e : Uart_command)
    (fv : List (List Char × Int)) (trailing : List Char) (he : e ∈ Uart_command_table)
    (hd : e.scanfmt = ['%', 'd']) (hn : e.para_num ≤ fv.length)
    (hwf : ∀ x ∈ fv, intLiteral x.1 = some x.2)
    (htr : fv.length = e.para_num → NoDigitHead trailing) :
    (Uart_Command_Process scanF P
        (e.name ++ '=' :: (joinFields (fv.map Prod.fst) ++ trailing))).Status =
        UART_COMMAND_PROCESS_OK ∧
      (Uart_Command_Process scanF P
        (e.name ++ '=' :: (joinFields (fv.map Prod.fst) ++ trailing))).sent = [] ∧
      (∀ j (hj : j < e.para_num),
        (Uart_Command_Process scanF P
          (e.name ++ '=' :: (joinFields (fv.map Prod.fst) ++ trailing))).Params.load
            (e.paraOffset + 4 * j) = toWord fv[j].2) ∧
      (∀ a, (∀ j, j < e.para_num → a ≠ e.paraOffset + 4 * j) →
        (Uart_Command_Process scanF P
          (e.name ++ '=' :: (joinFields (fv.map Prod.fst) ++ trailing))).Params.load a =
          P.load a) := by
  have hpos := table_para_num_pos e he
  have hcomma : ∀ f ∈ fv.map Prod.fst, ',' ∉ f := by
    intro f hf
    obtain ⟨x, hx, rfl⟩ := List.mem_map.1 hf
    exact intLiteral_no_comma (hwf x hx)
  have hlen : (fv.map Prod.fst).length = fv.length := List.length_map _ _
  -- the text at which element `j` is converted
  have hfield : ∀ j (hj : j < e.para_num),
      (afterCommas j (joinFields (fv.map Prod.fst) ++ trailing)).bind
        (fun t => sscanf scanF t e.scanfmt) = some (toWord fv[j].2) := by
    intro j hj
    have hjl : j < fv.length := by omega
    rw [afterCommas_join _ _ hcomma j (by omega), Option.some_bind,
      List.drop_eq_getElem_cons (by omega), joinFields_cons, List.append_assoc]
    have hlit : intLiteral (fv.map Prod.fst)[j] = some fv[j].2 := by
      rw [List.getElem_map]
      exact hwf _ (List.getElem_mem _)
    have hrest : NoDigitHead ((if List.drop (j + 1) (fv.map Prod.fst) = [] then []
        else ',' :: joinFields (List.drop (j + 1) (fv.map Prod.fst))) ++ trailing) := by
      split_ifs with h
      · rw [List.nil_append]
        apply htr
        have := List.drop_eq_nil_iff.1 h
        omega
      · exact noDigitHead_comma _
    simp only [sscanf, hd, if_true, scanInt_of_intLiteral hlit hrest, Option.map_some']
  have hq : (joinFields (fv.map Prod.fst) ++ trailing).headD '\x00' ≠ '?' := by
    cases hfv : fv with
    | nil => rw [hfv] at hn; simp at hn; omega
    | cons x xs =>
      rw [List.map_cons, joinFields_cons, List.append_assoc]
      exact intLiteral_head (hwf x (by rw [hfv]; simp)) _
  obtain ⟨i, hm⟩ := firstMatch_name e he ('=' :: (joinFields (fv.map Prod.fst) ++ trailing))
  obtain ⟨h1, _, h3, h4, h5⟩ := process_set_spec scanF P e.name
    (joinFields (fv.map Prod.fst) ++ trailing) i e (table_names_no_eq e he) hm hq
  refine ⟨?_, h3, ?_, h5⟩
  · rw [h1]
    have := afterCommas_join (fv.map Prod.fst) trailing hcomma (e.para_num - 1) (by omega)
    rw [this]
    rfl
  · intro j hj
    rw [h4 j hj, hfield j hj]

/-! ## Response formatting -/

theorem sprintf_text (t s : List Char) (k : Nat) (h : s.length + 1 ≤ k) :
    sprintf (t ++ zeros k) t.length s = (t ++ s) ++ zeros (k - s.length) := by
  unfold sprintf
  have h1 : List.take t.length (t ++ zeros k) = t := List.take_left' rfl
  have h2 : List.drop (t.length + s.length + 1) (t ++ zeros k) =
      zeros (k - (s.length + 1)) := by
    rw [Nat.add_assoc, List.drop_append]
    simp [zeros]
  have h3 : zeros (k - s.length) = '\x00' :: zeros (k - (s.length + 1)) := by
    have : k - s.length = (k - (s.length + 1)) + 1 := by omega
    rw [this]
    rfl
  rw [h1, h2, h3]
  simp

theorem txOf_step (t s : List Char) (c : Nat) (h : t.length + s.length + 1 ≤ 64) :
    (⟨sprintf (t ++ zeros (64 - t.length)) t.length s, t.length + s.length, c⟩ : TxState) =
      txOf (t ++ s) c := by
  simp only [txOf]
  have e : 64 - t.length - s.length = 64 - (t.length + s.length) := by omega
  rw [sprintf_text t s _ (by omega), List.length_append, e]

/-- One pass of the formatting loop for an `int` entry when the three capacity
tests pass, in terms of the intermediate states. -/
theorem queryBody_int_eq (e : Uart_command) (P : Params_t) (i : Nat) (s s1 s2 s3 : TxState)
    (hd : e.scanfmt.getD 1 '\x00' = 'd') (g1 : s.ParamsPtr + 1 ≤ 64)
    (h1 : s1 = if i ≠ 0 then
        ⟨sprintf s.tx_temp_buffer s.ParamsPtr [','], s.ParamsPtr + 1, s.CheckPtr⟩ else s)
    (g2 : s1.ParamsPtr + 5 ≤ 64)
    (h2 : s2 = ⟨sprintf s1.tx_temp_buffer s1.ParamsPtr (fmtInt (toInt (P.load s1.CheckPtr))),
        s1.ParamsPtr + (fmtInt (toInt (P.load s1.CheckPtr))).length, s1.CheckPtr + 4⟩)
    (g3 : s2.ParamsPtr + 3 ≤ 64)
    (h3 : s3 = if (i : Int) = (e.para_num : Int) - 1 then
        ⟨sprintf s2.tx_temp_buffer s2.ParamsPtr ['\r', '\n'], s2.ParamsPtr + 2, s2.CheckPtr⟩
        else s2) :
    queryBody e P i s = (s3, false) := by
  have g1' : ¬ s.ParamsPtr + 1 > 64 := by omega
  have g2' : ¬ s1.ParamsPtr + 5 > 64 := by omega
  have g3' : ¬ s2.ParamsPtr + 3 > 64 := by omega
  unfold queryBody
  rw [if_neg g1']
  simp only []
  rw [← h1, if_pos hd, if_neg g2', ← h2]
  simp only [Bool.false_eq_true, if_false]
  rw [if_neg g3', h3]
  split_ifs <;> rfl

theorem queryBody_int (e : Uart_command) (P : Params_t) (i : Nat) (t : List Char) (chk : Nat)
    (hd : e.scanfmt.getD 1 '\x00' = 'd') (hlen : t.length + 15 ≤ 64) :
    queryBody e P i (txOf t chk) =
      (txOf (t ++ ((if i ≠ 0 then [','] else []) ++ fmtInt (toInt (P.load chk)) ++
        (if (i : Int) = (e.para_num : Int) - 1 then ['\r', '\n'] else []))) (chk + 4),
        false) := by
  have hv := fmtInt_length (P.load chk)
  have hsl : (if i ≠ 0 then [','] else ([] : List Char)).length ≤ 1 := by
    split_ifs <;> simp
  apply queryBody_int_eq e P i (txOf t chk)
    (txOf (t ++ (if i ≠ 0 then [','] else [])) chk)
    (txOf (t ++ (if i ≠ 0 then [','] else []) ++ fmtInt (toInt (P.load chk))) (chk + 4))
    _ hd
  · show t.length + 1 ≤ 64
    omega
  · by_cases hi : i ≠ 0
    · rw [if_pos hi, if_pos hi]
      exact (txOf_step t [','] chk (by simp; omega)).symm
    · rw [if_neg hi, if_neg hi, List.append_nil]
  · show (t ++ (if i ≠ 0 then [','] else [])).length + 5 ≤ 64
    rw [List.length_append]
    omega
  · exact (txOf_step (t ++ (if i ≠ 0 then [','] else [])) (fmtInt (toInt (P.load chk)))
      (chk + 4) (by rw [List.length_append]; omega)).symm
  · show (t ++ (if i ≠ 0 then [','] else []) ++ fmtInt (toInt (P.load chk))).length + 3 ≤ 64
    rw [List.length_append, List.length_append]
    omega
  · by_cases hlast : (i : Int) = (e.para_num : Int) - 1
    · rw [if_pos hlast, if_pos hlast]
      have := txOf_step (t ++ (if i ≠ 0 then [','] else []) ++ fmtInt (toInt (P.load chk)))
        ['\r', '\n'] (chk + 4) (by
          rw [List.length_append, List.length_append]
          simp only [List.length_cons, List.length_nil]
          omega)
      have e : t ++ ((if i ≠ 0 then [','] else []) ++ fmtInt (toInt (P.load chk)) ++
          ['\r', '\n']) =
          t ++ (if i ≠ 0 then [','] else []) ++ fmtInt (toInt (P.load chk)) ++ ['\r', '\n'] := by
        simp only [List.append_assoc]
      rw [e]
      exact this.symm
    · rw [if_neg hlast, if_neg hlast, List.append_nil, List.append_assoc]

theorem queryLoop_int (e : Uart_command) (P : Params_t)
    (hd : e.scanfmt.getD 1 '\x00' = 'd') (rem i : Nat) (t : List Char) (chk : Nat)
    (hlen : t.length + 14 * rem + 1 ≤ 64) :
    queryLoop e P rem i (txOf t chk) =
      txOf (t ++ intText P e.para_num rem i chk) (chk + 4 * rem) := by
  induction rem generalizing i t chk with
  | zero => simp [queryLoop, intText]
  | succ rem ih =>
    have hv := fmtInt_length (P.load chk)
    unfold queryLoop
    rw [queryBody_int e P i t chk hd (by omega)]
    simp only [Bool.false_eq_true, if_false]
    rw [ih (i + 1) _ (chk + 4) (by
      simp only [List.length_append]
      have h1 : (if i ≠ 0 then [','] else ([] : List Char)).length ≤ 1 := by
        split_ifs <;> simp
      have h2 : (if (i : Int) = (e.para_num : Int) - 1 then ['\r', '\n']
          else ([] : List Char)).length ≤ 2 := by
        split_ifs <;> simp
      omega)]
    simp only [intText, List.append_assoc]
    congr 1
    omega

/-- The response to a query of an `int` entry whose name and elements fit the
buffer: the bytes handed to the transport are the name, `=`, the formatted
elements, and the terminating NUL written by the last `sprintf`. -/
theorem query_int_sent (scanF : List Char → Option Nat) (P : Params_t)
    (pre pv : List Char) (i : Nat) (e : Uart_command) (hpre : '=' ∉ pre)
    (hm : FirstMatch (pre ++ '=' :: pv) i e) (hq : pv.headD '\x00' = '?')
    (hd : e.scanfmt.getD 1 '\x00' = 'd') (hfit : e.name.length + 14 * e.para_num + 2 ≤ 64) :
    Uart_Command_Process scanF P (pre ++ '=' :: pv) =
      ⟨UART_COMMAND_PROCESS_OK, P,
        [e.name ++ '=' :: (intText P e.para_num e.para_num 0 e.paraOffset ++ ['\x00'])]⟩ := by
  rw [process_query scanF P pre pv i e hpre hm hq]
  have hinit : (⟨sprintf (sprintf (List.replicate 64 '\x00') 0 e.name) (strlen e.name) ['='],
      strlen e.name + 1, e.paraOffset⟩ : TxState) = txOf (e.name ++ ['=']) e.paraOffset := by
    have h0 := sprintf_text [] e.name 64 (by omega)
    have h1 := txOf_step e.name ['='] e.paraOffset (by simp; omega)
    simp only [List.nil_append, List.length_nil, zeros] at h0
    rw [h0, strlen]
    exact h1
  have hresp : formatResponse e P e.paraOffset =
      txOf (e.name ++ ['='] ++ intText P e.para_num e.para_num 0 e.paraOffset)
        (e.paraOffset + 4 * e.para_num) := by
    unfold formatResponse
    simp only [hinit]
    exact queryLoop_int e P hd e.para_num 0 _ e.paraOffset (by simp; omega)
  rw [hresp]
  -- the text is shorter than the buffer
  have hbound : ∀ rem i chk, (intText P e.para_num rem i chk).length ≤ 14 * rem := by
    intro rem
    induction rem with
    | zero => intro i chk; simp [intText]
    | succ rem ih =>
      intro i chk
      have hv := fmtInt_length (P.load chk)
      have := ih (i + 1) (chk + 4)
      simp only [intText, List.length_append]
      have h1 : (if i ≠ 0 then [','] else ([] : List Char)).length ≤ 1 := by
        split_ifs <;> simp
      have h2 : (if (i : Int) = (e.para_num : Int) - 1 then ['\r', '\n']
          else ([] : List Char)).length ≤ 2 := by
        split_ifs <;> simp
      omega
  have hb := hbound e.para_num 0 e.paraOffset
  have hL : (e.name ++ ['='] ++ intText P e.para_num e.para_num 0 e.paraOffset).length + 1
      ≤ 64 := by
    simp only [List.length_append, List.length_singleton]; omega
  simp only [txOf]
  rw [Nat.mod_eq_of_lt (by omega)]
  have hz : zeros (64 - (e.name ++ ['='] ++
      intText P e.para_num e.para_num 0 e.paraOffset).length) =
      '\x00' :: zeros (64 - (e.name ++ ['='] ++
        intText P e.para_num e.para_num 0 e.paraOffset).length - 1) := by
    have : 64 - (e.name ++ ['='] ++ intText P e.para_num e.para_num 0 e.paraOffset).length =
        (64 - (e.name ++ ['='] ++
          intText P e.para_num e.para_num 0 e.paraOffset).length - 1) + 1 := by omega
    rw [this]
    rfl
  rw [hz]
  have htake : ∀ (a b : List Char), List.take (a.length + 1) (a ++ '\x00' :: b) =
      a ++ ['\x00'] := by
    intro a b
    rw [List.take_append_eq_append_take]
    simp
  rw [htake]
  simp

/-! ## Reading a response back -/

theorem splitOnComma_of_not_mem {f : List Char} (h : ',' ∉ f) : splitOnComma f = [f] := by
  induction f with
  | nil => rfl
  | cons c cs ih =>
    simp only [List.mem_cons, not_or] at h
    have hc : ¬ c = ',' := fun e => h.1 e.symm
    simp [splitOnComma, hc, ih h.2]

theorem splitOnComma_append {f : List Char} (h : ',' ∉ f) (rest : List Char) :
    splitOnComma (f ++ ',' :: rest) = f :: splitOnComma rest := by
  induction f with
  | nil => simp [splitOnComma]
  | cons c cs ih =>
    simp only [List.mem_cons, not_or] at h
    have hc : ¬ c = ',' := fun e => h.1 e.symm
    simp [splitOnComma, hc, ih h.2]

theorem responseName_eq {name : List Char} (h : '=' ∉ name) (rest : List Char) :
    responseName (name ++ '=' :: rest) = name := by
  unfold responseName
  induction name with
  | nil => simp
  | cons c cs ih =>
    simp only [List.mem_cons, not_or] at h
    have hc : c ≠ '=' := fun e => h.1 e.symm
    simp only [List.cons_append]
    rw [List.takeWhile_cons_of_pos (by simpa using hc), ih h.2]

theorem responseFields_eq {name : List Char} (h : '=' ∉ name) (rest : List Char) :
    responseFields (name ++ '=' :: rest) = splitOnComma rest := by
  unfold responseFields
  induction name with
  | nil => simp
  | cons c cs ih =>
    simp only [List.mem_cons, not_or] at h
    have hc : c ≠ '=' := fun e => h.1 e.symm
    simp only [List.cons_append]
    rw [List.dropWhile_cons_of_pos (by simpa using hc), ih h.2]

theorem fmtInt_no_comma {v : Int} (h1 : INT_MIN ≤ v) (h2 : v ≤ INT_MAX) : ',' ∉ fmtInt v :=
  intLiteral_no_comma (fmtInt_literal h1 h2)

theorem scanInt_fmtInt {v : Int} (h1 : INT_MIN ≤ v) (h2 : v ≤ INT_MAX) (rest : List Char)
    (hr : NoDigitHead rest) : scanInt (fmtInt v ++ rest) = some v :=
  scanInt_of_intLiteral (fmtInt_literal h1 h2) hr

theorem intText_join (P : Params_t) (n off : Nat) (vs : List Int) (hlen : vs.length = n)
    (hval : ∀ j (hj : j < n), toInt (P.load (off + 4 * j)) = vs[j])
    (rem i : Nat) (hri : i + rem = n) (hrem : 1 ≤ rem) :
    intText P n rem i (off + 4 * i) =
      (if i ≠ 0 then [','] else []) ++ joinFields ((vs.drop i).map fmtInt) ++ ['\r', '\n'] := by
  induction rem generalizing i with
  | zero => omega
  | succ rem ih =>
    have hi : i < vs.length := by omega
    have hdrop : vs.drop i = vs[i] :: vs.drop (i + 1) := List.drop_eq_getElem_cons hi
    simp only [intText]
    rw [hval i (by omega), hdrop, List.map_cons, joinFields_cons]
    by_cases hlast : rem = 0
    · subst hlast
      have h1 : (i : Int) = (n : Int) - 1 := by omega
      have h2 : vs.drop (i + 1) = [] := List.drop_eq_nil_iff.2 (by omega)
      rw [if_pos h1, h2]
      simp [intText]
    · have h1 : ¬ (i : Int) = (n : Int) - 1 := by omega
      have h2 : ¬ List.map fmtInt (vs.drop (i + 1)) = [] := by
        intro h
        have := List.drop_eq_nil_iff.1 (List.map_eq_nil_iff.1 h)
        omega
      have e4 : off + 4 * i + 4 = off + 4 * (i + 1) := by omega
      rw [if_neg h1, if_neg h2, e4, ih (i + 1) (by omega) (by omega)]
      simp

theorem table_fit : ∀ e ∈ Uart_command_table, e.name.length + 14 * e.para_num + 2 ≤ 64 := by
  decide

theorem decode_fields (vs : List Int) (hr : ∀ v ∈ vs, INT_MIN ≤ v ∧ v ≤ INT_MAX)
    (tail : List Char) (hcomma : ',' ∉ tail) (hnd : NoDigitHead tail) (hne : vs ≠ []) :
    (splitOnComma (joinFields (vs.map fmtInt) ++ tail)).map scanInt = vs.map some := by
  induction vs with
  | nil => exact absurd rfl hne
  | cons v vs ih =>
    obtain ⟨h1, h2⟩ := hr v (by simp)
    have hvc := fmtInt_no_comma h1 h2
    cases vs with
    | nil =>
      have hc : ',' ∉ fmtInt v ++ tail := by
        simp only [List.mem_append, not_or]
        exact ⟨hvc, hcomma⟩
      simp only [List.map_cons, List.map_nil, joinFields]
      rw [splitOnComma_of_not_mem hc]
      simp only [List.map_cons, List.map_nil, scanInt_fmtInt h1 h2 tail hnd]
    | cons w ws =>
      have := ih (fun x hx => hr x (by simp [hx])) (by simp)
      simp only [List.map_cons, joinFields, List.append_assoc, List.cons_append]
      rw [splitOnComma_append hvc]
      simp only [List.map_cons] at this ⊢
      rw [this]
      have hs := scanInt_fmtInt h1 h2 [] noDigitHead_nil
      rw [List.append_nil] at hs
      rw [hs]

/-! ## Kinds of lines, commas, layout and order -/

theorem process_noEq (scanF : List Char → Option Nat) (P : Params_t) (data : List Char)
    (h : '=' ∉ data) :
    Uart_Command_Process scanF P data = ⟨UART_COMMAND_PROCESS_ERROR, P, []⟩ := by
  unfold Uart_Command_Process
  rw [strchr_eq_none h]
  rfl

/-- Every line is of one of three kinds: no `=`; a first `=` but no name of the
table as a prefix; a first `=` and a first matching entry. -/
theorem line_cases (data : List Char) :
    '=' ∉ data ∨
      (∃ pre pv, data = pre ++ '=' :: pv ∧ '=' ∉ pre ∧
        ∀ e ∈ Uart_command_table, ¬ e.name <+: data) ∨
      (∃ pre pv i e, data = pre ++ '=' :: pv ∧ '=' ∉ pre ∧ FirstMatch data i e) := by
  by_cases heq : '=' ∈ data
  · right
    obtain ⟨pre, pv, hd, hpre⟩ := mem_split_first heq
    by_cases hn : ∃ e ∈ Uart_command_table, e.name <+: data
    · right
      obtain ⟨i, e, hm⟩ := exists_firstMatch hn
      exact ⟨pre, pv, i, e, hd, hpre, hm⟩
    · left
      refine ⟨pre, pv, hd, hpre, ?_⟩
      intro e he hp
      exact hn ⟨e, he, hp⟩
  · exact Or.inl heq

/-- A word outside the elements of the matched entry keeps its value, for a
set as well as for a query. -/
theorem process_frame (scanF : List Char → Option Nat) (P : Params_t)
    (pre pv : List Char) (i : Nat) (e : Uart_command) (hpre : '=' ∉ pre)
    (hm : FirstMatch (pre ++ '=' :: pv) i e) (a : Nat)
    (ha : ∀ j, j < e.para_num → a ≠ e.paraOffset + 4 * j) :
    (Uart_Command_Process scanF P (pre ++ '=' :: pv)).Params.load a = P.load a := by
  by_cases hq : pv.headD '\x00' = '?'
  · rw [process_query scanF P pre pv i e hpre hm hq]
  · exact (process_set_spec scanF P pre pv i e hpre hm hq).2.2.2.2 a ha

theorem table_entry_of_name {e : Uart_command} (he : e ∈ Uart_command_table) :
    (e.name = "RGB".toList → e = ⟨"RGB".toList, "%d".toList, 3, 0⟩) ∧
      (e.name = "State".toList → e = ⟨"State".toList, "%d".toList, 1, 12⟩) ∧
      (e.name = "Temper".toList → e = ⟨"Temper".toList, "%f".toList, 1, 16⟩) ∧
      (e.name = "XY".toList → e = ⟨"XY".toList, "%f".toList, 2, 20⟩) := by
  revert e
  decide

theorem strchr_cases (s : List Char) (c : Char) :
    (strchr s c = none ∧ c ∉ s) ∨
      (∃ pre rest, s = pre ++ c :: rest ∧ c ∉ pre ∧ strchr s c = some (c :: rest)) := by
  by_cases h : c ∈ s
  · right
    obtain ⟨pre, rest, hs, hpre⟩ := mem_split_first h
    exact ⟨pre, rest, hs, hpre, by rw [hs, strchr_append hpre]⟩
  · exact Or.inl ⟨strchr_eq_none h, h⟩

/-- There is a text after the `k`-th comma exactly when the text has `k`
commas or more. -/
theorem afterCommas_isSome_iff (k : Nat) (s : List Char) :
    (afterCommas k s).isSome = true ↔ k ≤ s.count ',' := by
  induction k generalizing s with
  | zero => simp [afterCommas]
  | succ k ih =>
    rcases strchr_cases s ',' with ⟨hn, hmem⟩ | ⟨pre, rest, hs, hpre, hsome⟩
    · simp only [afterCommas, hn, Option.none_bind, Option.isSome_none]
      have : s.count ',' = 0 := List.count_eq_zero_of_not_mem hmem
      constructor
      · intro h; simp at h
      · intro h; omega
    · simp only [afterCommas, hsome, Option.some_bind, List.tail_cons]
      rw [ih rest, hs, List.count_append, List.count_cons_self,
        List.count_eq_zero_of_not_mem hpre]
      omega

theorem takeWhile_eq_nil_iff_head (s : List Char) :
    s.takeWhile isdigit = [] ↔ isdigit (s.headD '\x00') = false := by
  cases s with
  | nil => simp [isdigit]
  | cons c cs =>
    by_cases hc : isdigit c = true
    · simp [List.takeWhile, hc]
    · simp [List.takeWhile, hc]

/-- The conversion `%d` succeeds exactly on the texts that begin, after
optional white space, with a decimal integer. -/
theorem scanInt_isSome (t : List Char) : (scanInt t).isSome = startsWithInt t := by
  unfold scanInt startsWithInt
  simp only []
  have h := takeWhile_eq_nil_iff_head
    (if (t.dropWhile isspace).head? = some '-' ∨ (t.dropWhile isspace).head? = some '+'
      then (t.dropWhile isspace).tail else t.dropWhile isspace)
  by_cases hd : isdigit ((if (t.dropWhile isspace).head? = some '-' ∨
      (t.dropWhile isspace).head? = some '+'
      then (t.dropWhile isspace).tail else t.dropWhile isspace).headD '\x00') = true
  · have hne : ¬ List.takeWhile isdigit (if (t.dropWhile isspace).head? = some '-' ∨
        (t.dropWhile isspace).head? = some '+'
        then (t.dropWhile isspace).tail else t.dropWhile isspace) = [] := by
      intro h0
      rw [h.1 h0] at hd
      exact absurd hd (by simp)
    rw [if_neg hne, hd]
    rfl
  · have hf := Bool.eq_false_iff.2 hd
    rw [if_pos (h.2 hf), hf]
    rfl

/-- A first matching entry exists in any table as soon as some entry
matches. -/
theorem exists_first_in {data : List Char} (tbl : List Uart_command)
    (h : ∃ e ∈ tbl, e.name <+: data) :
    ∃ (k : Nat) (e : Uart_command), tbl[k]? = some e ∧ e.name <+: data ∧
      ∀ (j : Nat) (e' : Uart_command), j < k → tbl[j]? = some e' → ¬ e'.name <+: data := by
  classical
  have hex : ∃ j : Nat, ∃ e' : Uart_command, tbl[j]? = some e' ∧ e'.name <+: data := by
    obtain ⟨e, he, hp⟩ := h
    obtain ⟨j, hj, hje⟩ := List.getElem_of_mem he
    exact ⟨j, e, by rw [List.getElem?_eq_getElem hj, hje], hp⟩
  obtain ⟨e', h1, h2⟩ := Nat.find_spec hex
  refine ⟨Nat.find hex, e', h1, h2, ?_⟩
  intro j e'' hj hje hp
  exact Nat.find_min hex hj ⟨e'', hje, hp⟩

theorem table_prefix_free : ∀ e1 ∈ Uart_command_table, ∀ e2 ∈ Uart_command_table,
    e1 ≠ e2 → ¬ e1.name <+: e2.name := by
  decide

/-- At most one name of the table is a prefix of a given line. -/
theorem table_match_unique (data : List Char) (e1 e2 : Uart_command)
    (h1 : e1 ∈ Uart_command_table) (h2 : e2 ∈ Uart_command_table)
    (p1 : e1.name <+: data) (p2 : e2.name <+: data) : e1 = e2 := by
  by_contra hne
  rcases Nat.le_total e1.name.length e2.name.length with hl | hl
  · exact table_prefix_free e1 h1 e2 h2 hne (List.prefix_of_prefix_length_le p1 p2 hl)
  · exact table_prefix_free e2 h2 e1 h1 (fun h => hne h.symm)
      (List.prefix_of_prefix_length_le p2 p1 hl)

/-- The scan of any reordering of the table runs the branch of the one entry
whose name is a prefix of the line, and no branch when there is none. -/
theorem tableLoop_perm (scanF : List Char → Option Nat) (data pv : List Char) (s : ScanState)
    (tbl : List Uart_command) (hperm : tbl.Perm Uart_command_table) :
    (∀ e ∈ Uart_command_table, e.name <+: data →
        ∃ k, tbl[k]? = some e ∧ tableLoop scanF data pv tbl 0 s = commandBody scanF e k pv s) ∧
      ((∀ e ∈ Uart_command_table, ¬ e.name <+: data) →
        tableLoop scanF data pv tbl 0 s = s) := by
  have hnul : ∀ e ∈ tbl, ∀ c ∈ e.name, c.toNat ≠ 0 :=
    fun e he => table_names_no_nul e (hperm.mem_iff.1 he)
  constructor
  · intro e he hp
    obtain ⟨k, e', hk, hp', hfirst⟩ := exists_first_in tbl ⟨e, hperm.mem_iff.2 he, hp⟩
    have hmem : e' ∈ Uart_command_table :=
      hperm.mem_iff.1 (List.mem_iff_getElem?.2 ⟨k, hk⟩)
    have heq : e' = e := table_match_unique data e' e hmem he hp' hp
    subst heq
    refine ⟨k, hk, ?_⟩
    have := tableLoop_first scanF data pv tbl hnul 0 k e' s hk hp' hfirst
    rw [Nat.zero_add] at this
    exact this
  · intro hno
    exact tableLoop_none scanF data pv tbl hnul 0 s
      (fun e he => hno e (hperm.mem_iff.1 he))

theorem intText_length (P : Params_t) (n : Nat) (rem i chk : Nat) :
    (intText P n rem i chk).length ≤ 14 * rem := by
  induction rem generalizing i chk with
  | zero => simp [intText]
  | succ rem ih =>
    have hv := fmtInt_length (P.load chk)
    have := ih (i + 1) (chk + 4)
    simp only [intText, List.length_append]
    have h1 : (if i ≠ 0 then [','] else ([] : List Char)).length ≤ 1 := by
      split_ifs <;> simp
    have h2 : (if (i : Int) = (n : Int) - 1 then ['\r', '\n']
        else ([] : List Char)).length ≤ 2 := by
      split_ifs <;> simp
    omega

/-- The formatter state after the response of an `int` entry whose name and
elements fit the buffer: the buffer holds the whole text and is still 64 bytes
long. -/
theorem formatResponse_int (e : Uart_command) (P : Params_t)
    (hd : e.scanfmt.getD 1 '\x00' = 'd') (hfit : e.name.length + 14 * e.para_num + 2 ≤ 64) :
    formatResponse e P e.paraOffset =
      txOf (e.name ++ ['='] ++ intText P e.para_num e.para_num 0 e.paraOffset)
        (e.paraOffset + 4 * e.para_num) := by
  have hinit : (⟨sprintf (sprintf (List.replicate 64 '\x00') 0 e.name) (strlen e.name) ['='],
      strlen e.name + 1, e.paraOffset⟩ : TxState) = txOf (e.name ++ ['=']) e.paraOffset := by
    have h0 := sprintf_text [] e.name 64 (by omega)
    have h1 := txOf_step e.name ['='] e.paraOffset (by simp; omega)
    simp only [List.nil_append, List.length_nil, zeros] at h0
    rw [h0, strlen]
    exact h1
  unfold formatResponse
  simp only [hinit]
  exact queryLoop_int e P hd e.para_num 0 _ e.paraOffset (by simp; omega)

theorem txOf_buffer_length (t : List Char) (chk : Nat) (h : t.length ≤ 64) :
    (txOf t chk).tx_temp_buffer.length = 64 := by
  simp only [txOf, zeros, List.length_append, List.length_replicate]
  omega

/-! ## The claims -/

set_option maxHeartbeats 2000000

set_option maxRecDepth 100000

/-- C1: round trip for the `int` entries.  For every entry `e` of the table
with format `%d` (`RGB`, `State`), every store and every list `vs` of
`para_num` values of type `int`, the set line made of the name, `=` and the
decimal texts of `vs` joined by commas returns `UART_COMMAND_PROCESS_OK`, and
the query that follows hands over one response: the name, `=`, the decimal
texts of `vs` joined by commas, the line ending and the terminating NUL; its
name part is the name of `e` and its comma-separated fields convert back to
exactly `vs`. -/
theorem C1_roundtrip_int (scanF : List Char → Option Nat) (P : Params_t) (e : Uart_command)
    (vs : List Int) (he : e ∈ Uart_command_table) (hd : e.scanfmt = ['%', 'd'])
    (hlen : vs.length = e.para_num) (hr : ∀ v ∈ vs, INT_MIN ≤ v ∧ v ≤ INT_MAX) :
    (Uart_Command_Process scanF P (e.name ++ '=' :: joinFields (vs.map fmtInt))).Status =
        UART_COMMAND_PROCESS_OK ∧
      ∃ resp,
        (Uart_Command_Process scanF
          (Uart_Command_Process scanF P (e.name ++ '=' :: joinFields (vs.map fmtInt))).Params
          (e.name ++ ['=', '?'])).sent = [resp] ∧
        resp = e.name ++ '=' :: (joinFields (vs.map fmtInt) ++ ['\r', '\n', '\x00']) ∧
        responseName resp = e.name ∧
        (responseFields resp).map scanInt = vs.map some := by
  have hpos := table_para_num_pos e he
  have hneq := table_names_no_eq e he
  have hfst : (vs.map (fun v => (fmtInt v, v))).map Prod.fst = vs.map fmtInt := by
    rw [List.map_map]
    rfl
  obtain ⟨h1, _, h3, _⟩ := set_int_fields scanF P e (vs.map (fun v => (fmtInt v, v))) [] he hd
    (by rw [List.length_map]; omega)
    (by
      intro x hx
      obtain ⟨v, hv, rfl⟩ := List.mem_map.1 hx
      exact fmtInt_literal (hr v hv).1 (hr v hv).2)
    (fun _ => noDigitHead_nil)
  rw [hfst, List.append_nil] at h1 h3
  refine ⟨h1, _, ?_, rfl, ?_, ?_⟩
  · have hval : ∀ j (hj : j < e.para_num),
        toInt ((Uart_Command_Process scanF P
          (e.name ++ '=' :: joinFields (vs.map fmtInt))).Params.load (e.paraOffset + 4 * j)) =
          vs[j] := by
      intro j hj
      have hv := hr vs[j] (List.getElem_mem _)
      rw [h3 j hj, List.getElem_map]
      exact toInt_toWord hv.1 hv.2
    obtain ⟨i, hm⟩ := firstMatch_name e he ['=', '?']
    have hd1 : e.scanfmt.getD 1 '\x00' = 'd' := by rw [hd]; rfl
    rw [query_int_sent scanF _ e.name ['?'] i e hneq hm rfl hd1 (table_fit e he)]
    have ht := intText_join _ e.para_num e.paraOffset vs hlen hval e.para_num 0 (by omega) hpos
    rw [Nat.mul_zero, Nat.add_zero] at ht
    rw [ht]
    simp
  · exact responseName_eq hneq _
  · rw [responseFields_eq hneq]
    exact decode_fields vs hr _ (by decide) (by unfold NoDigitHead; decide) (by
      intro h
      rw [h] at hlen
      simp at hlen
      omega)

theorem C1_roundtrip_int_witness :
    (Uart_Command_Process (fun _ => none) Params
        ("RGB".toList ++ '=' :: joinFields ([10, -20, 30].map fmtInt))).Status =
        UART_COMMAND_PROCESS_OK ∧
      ∃ resp,
        (Uart_Command_Process (fun _ => none)
          (Uart_Command_Process (fun _ => none) Params
            ("RGB".toList ++ '=' :: joinFields ([10, -20, 30].map fmtInt))).Params
          ("RGB".toList ++ ['=', '?'])).sent = [resp] ∧
        resp = "RGB".toList ++ '=' ::
          (joinFields ([10, -20, 30].map fmtInt) ++ ['\r', '\n', '\x00']) ∧
        responseName resp = "RGB".toList ∧
        (responseFields resp).map scanInt = [10, -20, 30].map some :=
  C1_roundtrip_int (fun _ => none) Params ⟨"RGB".toList, "%d".toList, 3, 0⟩ [10, -20, 30]
    (by decide) rfl rfl (by decide)

/-- C2 fails on the code: the capacity tests of the formatting loop allow 5
bytes for a number, and `%f` can produce 47.  With both elements of `XY` equal
to the least finite `float` (bit pattern `0xFF7FFFFF`), the query `XY=?`
passes every test before the second number is written, `sprintf` writes up to
index 98 of the 64-byte buffer, and 99 bytes are handed to the transport. -/
theorem C2_float_response_overflows (scanF : List Char → Option Nat) :
    fmtFloat 0xFF7FFFFF = "-340282346638528859811704183484516925440.000000".toList ∧
      (formatResponse ⟨"XY".toList, "%f".toList, 2, 20⟩
        ⟨0, 0, 0, 0, 0, 0xFF7FFFFF, 0xFF7FFFFF⟩ 20).tx_temp_buffer.length = 99 ∧
      (formatResponse ⟨"XY".toList, "%f".toList, 2, 20⟩
        ⟨0, 0, 0, 0, 0, 0xFF7FFFFF, 0xFF7FFFFF⟩ 20).ParamsPtr = 98 ∧
      (Uart_Command_Process scanF ⟨0, 0, 0, 0, 0, 0xFF7FFFFF, 0xFF7FFFFF⟩
        "XY=?".toList).sent.map List.length = [99] := by
  have hm : FirstMatch ("XY".toList ++ '=' :: ['?']) 3 ⟨"XY".toList, "%f".toList, 2, 20⟩ := by
    unfold FirstMatch; decide
  have hq := process_query scanF ⟨0, 0, 0, 0, 0, 0xFF7FFFFF, 0xFF7FFFFF⟩ "XY".toList ['?'] 3
    ⟨"XY".toList, "%f".toList, 2, 20⟩ (by decide) hm rfl
  have hdata : "XY=?".toList = "XY".toList ++ '=' :: ['?'] := rfl
  refine ⟨by decide, by decide, by decide, ?_⟩
  rw [hdata, hq]
  decide

/-- C3 as stated fails: in `RGB=1,x,3` the field `x` is no number, yet the call
returns `UART_COMMAND_PROCESS_OK` and the element after the bad field is
written (`RGB[2]` goes from 9 to 3). -/
theorem C3_malformed_field_does_not_abort :
    intLiteral "x".toList = none ∧
      Uart_Command_Process (fun _ => none) ⟨7, 8, 9, 0, 0, 0, 0⟩ "RGB=1,x,3".toList =
        ⟨UART_COMMAND_PROCESS_OK, ⟨1, 8, 3, 0, 0, 0, 0⟩, []⟩ ∧
      ¬ ((Uart_Command_Process (fun _ => none) ⟨7, 8, 9, 0, 0, 0, 0⟩
            "RGB=1,x,3".toList).Status = UART_COMMAND_PROCESS_ERROR ∧
          (Uart_Command_Process (fun _ => none) ⟨7, 8, 9, 0, 0, 0, 0⟩
            "RGB=1,x,3".toList).Params.RGB2 = 9) := by
  decide

/-- C3, amended: a malformed field is skipped and does not abort the set.  For
a line that resolves to a set of the entry `e`, when the text after the `k`-th
comma (`k < para_num`) does not convert, element `k` keeps its value; every
element whose text is present and converts holds the converted value, before
as well as after `k`; and the call returns `UART_COMMAND_PROCESS_OK` exactly
when the text after `=` has `para_num - 1` commas, else
`UART_COMMAND_PROCESS_ERROR`. -/
theorem C3_malformed_field_is_skipped (scanF : List Char → Option Nat) (P : Params_t)
    (pre pv : List Char) (i : Nat) (e : Uart_command) (k : Nat) (t : List Char)
    (hpre : '=' ∉ pre) (hm : FirstMatch (pre ++ '=' :: pv) i e)
    (hq : pv.headD '\x00' ≠ '?') (hk : k < e.para_num)
    (hfield : afterCommas k pv = some t) (hbad : sscanf scanF t e.scanfmt = none) :
    (Uart_Command_Process scanF P (pre ++ '=' :: pv)).Params.load (e.paraOffset + 4 * k) =
        P.load (e.paraOffset + 4 * k) ∧
      (∀ j tj w, j < e.para_num → afterCommas j pv = some tj →
        sscanf scanF tj e.scanfmt = some w →
        (Uart_Command_Process scanF P (pre ++ '=' :: pv)).Params.load
          (e.paraOffset + 4 * j) = w) ∧
      ((Uart_Command_Process scanF P (pre ++ '=' :: pv)).Status = UART_COMMAND_PROCESS_OK ↔
        (afterCommas (e.para_num - 1) pv).isSome = true) ∧
      ((Uart_Command_Process scanF P (pre ++ '=' :: pv)).Status = UART_COMMAND_PROCESS_OK ∨
        (Uart_Command_Process scanF P (pre ++ '=' :: pv)).Status =
          UART_COMMAND_PROCESS_ERROR) := by
  obtain ⟨h1, h2, _, h4, _⟩ := process_set_spec scanF P pre pv i e hpre hm hq
  refine ⟨?_, ?_, h1, h2⟩
  · rw [h4 k hk, hfield, Option.some_bind, hbad]
  · intro j tj w hj htj hw
    rw [h4 j hj, htj, Option.some_bind, hw]

theorem C3_malformed_field_is_skipped_witness :
    (Uart_Command_Process (fun _ => none) ⟨7, 8, 9, 0, 0, 0, 0⟩
        ("RGB".toList ++ '=' :: "1,x,3".toList)).Params.load (0 + 4 * 1) = 8 ∧
      ((Uart_Command_Process (fun _ => none) ⟨7, 8, 9, 0, 0, 0, 0⟩
        ("RGB".toList ++ '=' :: "1,x,3".toList)).Status = UART_COMMAND_PROCESS_OK ↔
        (afterCommas (3 - 1) "1,x,3".toList).isSome = true) :=
  ⟨(C3_malformed_field_is_skipped (fun _ => none) ⟨7, 8, 9, 0, 0, 0, 0⟩ "RGB".toList
      "1,x,3".toList 0 ⟨"RGB".toList, "%d".toList, 3, 0⟩ 1 "x,3".toList (by decide)
      (by unfold FirstMatch; decide) (by decide) (by decide) (by decide) (by decide)).1,
    (C3_malformed_field_is_skipped (fun _ => none) ⟨7, 8, 9, 0, 0, 0, 0⟩ "RGB".toList
      "1,x,3".toList 0 ⟨"RGB".toList, "%d".toList, 3, 0⟩ 1 "x,3".toList (by decide)
      (by unfold FirstMatch; decide) (by decide) (by decide) (by decide) (by decide)).2.2.1⟩

/-- C4: insufficient fields give a partial write with no rollback.  For every
entry `e` of the table, every store and every set line made of the name, `=`
and `k` well-formed fields joined by commas with `1 ≤ k < para_num`, the call
returns `UART_COMMAND_PROCESS_ERROR`, elements `0..k-1` hold the values of the
fields and elements `k..para_num-1` keep their prior values. -/
theorem C4_insufficient_fields_partial_write (scanF : List Char → Option Nat) (P : Params_t)
    (e : Uart_command) (fv : List (List Char × Nat)) (he : e ∈ Uart_command_table)
    (hk1 : 1 ≤ fv.length) (hk2 : fv.length < e.para_num)
    (hwf : ∀ x ∈ fv, WellFormedField scanF e x.1 x.2)
    (hset : (joinFields (fv.map Prod.fst)).headD '\x00' ≠ '?') :
    (Uart_Command_Process scanF P (e.name ++ '=' :: joinFields (fv.map Prod.fst))).Status =
        UART_COMMAND_PROCESS_ERROR ∧
      (∀ j (hj : j < fv.length),
        (Uart_Command_Process scanF P
          (e.name ++ '=' :: joinFields (fv.map Prod.fst))).Params.load
            (e.paraOffset + 4 * j) = fv[j].2) ∧
      (∀ j, fv.length ≤ j → j < e.para_num →
        (Uart_Command_Process scanF P
          (e.name ++ '=' :: joinFields (fv.map Prod.fst))).Params.load
            (e.paraOffset + 4 * j) = P.load (e.paraOffset + 4 * j)) := by
  have hcomma : ∀ f ∈ fv.map Prod.fst, ',' ∉ f := by
    intro f hf
    obtain ⟨x, hx, rfl⟩ := List.mem_map.1 hf
    exact (hwf x hx).1
  have hlen : (fv.map Prod.fst).length = fv.length := List.length_map _ _
  obtain ⟨i, hm⟩ := firstMatch_name e he ('=' :: joinFields (fv.map Prod.fst))
  obtain ⟨h1, h2, _, h4, _⟩ := process_set_spec scanF P e.name
    (joinFields (fv.map Prod.fst)) i e (table_names_no_eq e he) hm hset
  refine ⟨?_, ?_, ?_⟩
  · rcases h2 with h | h
    · rw [h1, afterCommas_join_none _ hcomma _ (by omega) (by omega)] at h
      simp at h
    · exact h
  · intro j hj
    have hj' : j < (fv.map Prod.fst).length := by omega
    have hac := afterCommas_join (fv.map Prod.fst) [] hcomma j hj'
    rw [List.append_nil, List.append_nil] at hac
    rw [h4 j (by omega), hac, Option.some_bind, List.drop_eq_getElem_cons hj', joinFields_cons,
      List.getElem_map]
    have hx := hwf fv[j] (List.getElem_mem _)
    split_ifs with hnil
    · rw [List.append_nil, hx.2.1]
    · rw [hx.2.2]
  · intro j hj1 hj2
    rw [h4 j hj2, afterCommas_join_none _ hcomma _ (by omega) (by omega)]
    rfl

theorem C4_insufficient_fields_partial_write_witness :
    (Uart_Command_Process (fun _ => none) ⟨7, 8, 9, 0, 0, 0, 0⟩
        ("RGB".toList ++ '=' :: joinFields ([("1".toList, toWord 1), ("2".toList, toWord 2)].map
          Prod.fst))).Status = UART_COMMAND_PROCESS_ERROR ∧
      Uart_Command_Process (fun _ => none) ⟨7, 8, 9, 0, 0, 0, 0⟩ "RGB=1,2".toList =
        ⟨UART_COMMAND_PROCESS_ERROR, ⟨1, 2, 9, 0, 0, 0, 0⟩, []⟩ :=
  ⟨(C4_insufficient_fields_partial_write (fun _ => none) ⟨7, 8, 9, 0, 0, 0, 0⟩
      ⟨"RGB".toList, "%d".toList, 3, 0⟩ [("1".toList, toWord 1), ("2".toList, toWord 2)]
      (by decide) (by decide) (by decide)
      (by
        intro x hx
        simp only [List.mem_cons, List.mem_singleton, List.not_mem_nil, or_false] at hx
        rcases hx with rfl | rfl
        · exact wellFormed_of_intLiteral (fun _ => none) ⟨"RGB".toList, "%d".toList, 3, 0⟩ rfl
            (by decide : intLiteral "1".toList = some 1)
        · exact wellFormed_of_intLiteral (fun _ => none) ⟨"RGB".toList, "%d".toList, 3, 0⟩ rfl
            (by decide : intLiteral "2".toList = some 2))
      (by decide)).1,
    by decide⟩

/-- C5 fails on the code by one byte: the length handed to the transport is
`ParamsPtr - tx_temp_buffer + 1`, so the terminating NUL of the buffer follows
the line ending.  For every store, the query of `RGB` and of `State` hands
over the name, `=`, the decimal texts of the elements separated by commas,
the line ending and one NUL; after `RGB=10,20,30` the query `RGB=?` hands
over the 15 bytes of `RGB=10,20,30` + CR LF NUL, not the 14 bytes of the
text. -/
theorem C5_response_bytes_with_nul (scanF : List Char → Option Nat) (P : Params_t) :
    Uart_Command_Process scanF P "RGB=?".toList =
        ⟨UART_COMMAND_PROCESS_OK, P,
          ["RGB=".toList ++ fmtInt (toInt P.RGB0) ++ ',' :: fmtInt (toInt P.RGB1) ++
            ',' :: fmtInt (toInt P.RGB2) ++ ['\r', '\n', '\x00']]⟩ ∧
      Uart_Command_Process scanF P "State=?".toList =
        ⟨UART_COMMAND_PROCESS_OK, P,
          ["State=".toList ++ fmtInt (toInt P.State) ++ ['\r', '\n', '\x00']]⟩ ∧
      (Uart_Command_Process scanF
          (Uart_Command_Process scanF P "RGB=10,20,30".toList).Params "RGB=?".toList).sent =
        ["RGB=10,20,30\r\n\x00".toList] ∧
      "RGB=10,20,30\r\n\x00".toList.length = 15 ∧
      (Uart_Command_Process scanF
          (Uart_Command_Process scanF P "RGB=10,20,30".toList).Params "RGB=?".toList).sent ≠
        ["RGB=10,20,30\r\n".toList] := by
  have hrgb : ∀ Q : Params_t, Uart_Command_Process scanF Q "RGB=?".toList =
      ⟨UART_COMMAND_PROCESS_OK, Q,
        ["RGB=".toList ++ fmtInt (toInt Q.RGB0) ++ ',' :: fmtInt (toInt Q.RGB1) ++
          ',' :: fmtInt (toInt Q.RGB2) ++ ['\r', '\n', '\x00']]⟩ := by
    intro Q
    have hm : FirstMatch ("RGB".toList ++ '=' :: ['?']) 0 ⟨"RGB".toList, "%d".toList, 3, 0⟩ := by
      unfold FirstMatch; decide
    have := query_int_sent scanF Q "RGB".toList ['?'] 0 ⟨"RGB".toList, "%d".toList, 3, 0⟩
      (by decide) hm rfl rfl (by decide)
    simpa [intText, Params_t.load] using this
  have hset : Uart_Command_Process scanF P "RGB=10,20,30".toList =
      ⟨UART_COMMAND_PROCESS_OK, { P with RGB0 := 10, RGB1 := 20, RGB2 := 30 }, []⟩ := rfl
  have h10 : fmtInt (toInt 10) = ['1', '0'] := by decide
  have h20 : fmtInt (toInt 20) = ['2', '0'] := by decide
  have h30 : fmtInt (toInt 30) = ['3', '0'] := by decide
  have hsent : (Uart_Command_Process scanF
      (Uart_Command_Process scanF P "RGB=10,20,30".toList).Params "RGB=?".toList).sent =
      ["RGB=10,20,30\r\n\x00".toList] := by
    rw [hset, hrgb]
    simp only [h10, h20, h30]
    rfl
  refine ⟨hrgb P, ?_, hsent, rfl, ?_⟩
  · have hm : FirstMatch ("State".toList ++ '=' :: ['?']) 1
        ⟨"State".toList, "%d".toList, 1, 12⟩ := by
      unfold FirstMatch; decide
    have := query_int_sent scanF P "State".toList ['?'] 1 ⟨"State".toList, "%d".toList, 1, 12⟩
      (by decide) hm rfl rfl (by decide)
    simpa [intText, Params_t.load] using this
  · rw [hsent]
    decide

/-- C6: a line that holds no `=` is not a command: for every store the call
returns `UART_COMMAND_PROCESS_ERROR`, leaves `Params` as it was and hands
nothing to the transport. -/
theorem C6_non_command_is_noop (scanF : List Char → Option Nat) (P : Params_t)
    (data : List Char) (h : '=' ∉ data) :
    Uart_Command_Process scanF P data = ⟨UART_COMMAND_PROCESS_ERROR, P, []⟩ := by
  unfold Uart_Command_Process
  rw [strchr_eq_none h]
  rfl

theorem C6_non_command_is_noop_witness :
    '=' ∉ "hello world".toList ∧
      Uart_Command_Process (fun _ => none) Params "hello world".toList =
        ⟨UART_COMMAND_PROCESS_ERROR, Params, []⟩ :=
  ⟨by decide, C6_non_command_is_noop (fun _ => none) Params "hello world".toList (by decide)⟩

/-- C7: a line that holds `=` but starts with none of the names of the table
is an unknown command: for every store the call returns
`UART_COMMAND_PROCESS_ERROR`, leaves `Params` as it was and hands nothing to
the transport, whatever follows the `=` (a `?` included). -/
theorem C7_unknown_command_is_noop (scanF : List Char → Option Nat) (P : Params_t)
    (data : List Char) (_heq : '=' ∈ data)
    (hno : ∀ e ∈ Uart_command_table, ¬ e.name <+: data) :
    Uart_Command_Process scanF P data = ⟨UART_COMMAND_PROCESS_ERROR, P, []⟩ :=
  process_noMatch scanF P data hno

theorem C7_unknown_command_is_noop_witness :
    ('=' ∈ "Bogus=?".toList ∧ ∀ e ∈ Uart_command_table, ¬ e.name <+: "Bogus=?".toList) ∧
      Uart_Command_Process (fun _ => none) ⟨1, 2, 3, 4, 5, 6, 7⟩ "Bogus=?".toList =
        ⟨UART_COMMAND_PROCESS_ERROR, ⟨1, 2, 3, 4, 5, 6, 7⟩, []⟩ :=
  ⟨⟨by decide, by decide⟩,
    C7_unknown_command_is_noop (fun _ => none) ⟨1, 2, 3, 4, 5, 6, 7⟩ "Bogus=?".toList
      (by decide) (by decide)⟩

/-- C8: lookup is the first prefix match in table order.  For a line
`pre ++ "=" ++ pv` whose first `=` follows `pre`: when `e` at index `i` is the
first entry whose name is a prefix of the line, the call does what the branch
of entry `e` does and the name lies within `pre`; when no name is a prefix the
call acts on no entry; and some first match exists as soon as some name is a
prefix.  The name need not be followed by `=`: `Stateful=5` sets `State` to 5
and returns `UART_COMMAND_PROCESS_OK`. -/
theorem C8_lookup_first_prefix_match (scanF : List Char → Option Nat) (P : Params_t)
    (pre pv : List Char) (hpre : '=' ∉ pre) :
    (∀ i e, FirstMatch (pre ++ '=' :: pv) i e →
        Uart_Command_Process scanF P (pre ++ '=' :: pv) =
          respond (commandBody scanF e i pv (initState P)) ∧ e.name <+: pre) ∧
      ((∀ e ∈ Uart_command_table, ¬ e.name <+: pre ++ '=' :: pv) →
        Uart_Command_Process scanF P (pre ++ '=' :: pv) =
          ⟨UART_COMMAND_PROCESS_ERROR, P, []⟩) ∧
      ((∃ e ∈ Uart_command_table, e.name <+: pre ++ '=' :: pv) →
        ∃ i e, FirstMatch (pre ++ '=' :: pv) i e) ∧
      Uart_Command_Process scanF P "Stateful=5".toList =
        ⟨UART_COMMAND_PROCESS_OK, { P with State := 5 }, []⟩ := by
  refine ⟨?_, process_noMatch scanF P _, exists_firstMatch, rfl⟩
  intro i e hm
  exact ⟨process_firstMatch scanF P pre pv i e hpre hm,
    prefix_before (table_names_no_eq e (firstMatch_index hm).1) hm.2.1⟩

theorem C8_lookup_first_prefix_match_witness :
    '=' ∉ "Stateful".toList ∧
      FirstMatch "Stateful=5".toList 1 ⟨"State".toList, "%d".toList, 1, 12⟩ ∧
      Uart_Command_Process (fun _ => none) Params "Stateful=5".toList =
        respond (commandBody (fun _ => none) ⟨"State".toList, "%d".toList, 1, 12⟩ 1
          "5".toList (initState Params)) ∧
      Uart_Command_Process (fun _ => none) Params "Stateful=5".toList =
        ⟨UART_COMMAND_PROCESS_OK, { Params with State := 5 }, []⟩ :=
  ⟨by decide, by unfold FirstMatch; decide,
    ((C8_lookup_first_prefix_match (fun _ => none) Params "Stateful".toList "5".toList
      (by decide)).1 1 ⟨"State".toList, "%d".toList, 1, 12⟩
      (by unfold FirstMatch; decide)).1,
    (C8_lookup_first_prefix_match (fun _ => none) Params "Stateful".toList "5".toList
      (by decide)).2.2.2⟩

/-- C9: a complete set, extras ignored.  For every `int` entry `e` of the
table with `n` elements, every store and every line made of the name, `=`,
`m ≥ n` decimal `int` fields joined by commas and any trailing text (one that
does not prolong the last field with a digit when `m = n`), the call returns
`UART_COMMAND_PROCESS_OK`, element `j < n` holds the value of field `j`, and
the outcome is that of the line with the first `n` fields alone. -/
theorem C9_complete_set_extras_ignored (scanF : List Char → Option Nat) (P : Params_t)
    (e : Uart_command) (fv : List (List Char × Int)) (trailing : List Char)
    (he : e ∈ Uart_command_table) (hd : e.scanfmt = ['%', 'd'])
    (hn : e.para_num ≤ fv.length) (hwf : ∀ x ∈ fv, intLiteral x.1 = some x.2)
    (htr : fv.length = e.para_num → NoDigitHead trailing) :
    (Uart_Command_Process scanF P
        (e.name ++ '=' :: (joinFields (fv.map Prod.fst) ++ trailing))).Status =
        UART_COMMAND_PROCESS_OK ∧
      (∀ j (hj : j < e.para_num),
        toInt ((Uart_Command_Process scanF P
          (e.name ++ '=' :: (joinFields (fv.map Prod.fst) ++ trailing))).Params.load
            (e.paraOffset + 4 * j)) = fv[j].2) ∧
      Uart_Command_Process scanF P
          (e.name ++ '=' :: (joinFields (fv.map Prod.fst) ++ trailing)) =
        Uart_Command_Process scanF P
          (e.name ++ '=' :: joinFields ((fv.take e.para_num).map Prod.fst)) := by
  obtain ⟨h1, h2, h3, h4⟩ := set_int_fields scanF P e fv trailing he hd hn hwf htr
  have hlen : (fv.take e.para_num).length = e.para_num := by
    rw [List.length_take]; omega
  obtain ⟨g1, g2, g3, g4⟩ := set_int_fields scanF P e (fv.take e.para_num) [] he hd
    (by omega) (fun x hx => hwf x (List.mem_of_mem_take hx)) (fun _ => noDigitHead_nil)
  rw [List.append_nil] at g1 g2 g3 g4
  refine ⟨h1, ?_, ?_⟩
  · intro j hj
    rw [h3 j hj]
    obtain ⟨_, _, _, hmin, hmax, _⟩ := intLiteral_cases (hwf fv[j] (List.getElem_mem _))
    exact toInt_toWord hmin hmax
  · apply outcome_ext
    · rw [h1, g1]
    · apply Params_ext
      intro a
      by_cases ha : ∃ j, j < e.para_num ∧ a = e.paraOffset + 4 * j
      · obtain ⟨j, hj, rfl⟩ := ha
        rw [h3 j hj, g3 j hj, List.getElem_take]
      · have ha' : ∀ j, j < e.para_num → a ≠ e.paraOffset + 4 * j :=
          fun j hj heq => ha ⟨j, hj, heq⟩
        rw [h4 a ha', g4 a ha']
    · rw [h2, g2]

theorem C9_complete_set_extras_ignored_witness :
    Uart_Command_Process (fun _ => none) ⟨7, 8, 9, 0, 0, 0, 0⟩
        ("RGB".toList ++ '=' :: (joinFields ([("1".toList, (1 : Int)), ("-2".toList, -2),
          ("3".toList, 3), ("4".toList, 4)].map Prod.fst) ++ "\r\n".toList)) =
      Uart_Command_Process (fun _ => none) ⟨7, 8, 9, 0, 0, 0, 0⟩
        ("RGB".toList ++ '=' :: joinFields (([("1".toList, (1 : Int)), ("-2".toList, -2),
          ("3".toList, 3), ("4".toList, 4)].take 3).map Prod.fst)) :=
  (C9_complete_set_extras_ignored (fun _ => none) ⟨7, 8, 9, 0, 0, 0, 0⟩
    ⟨"RGB".toList, "%d".toList, 3, 0⟩
    [("1".toList, (1 : Int)), ("-2".toList, -2), ("3".toList, 3), ("4".toList, 4)]
    "\r\n".toList (by decide) rfl (by decide) (by decide)
    (fun _ => by unfold NoDigitHead; decide)).2.2

/-- C10: a query never mutates.  For every store and every line in which a
name of the table is a prefix and the character right after the first `=` is
`?`, whatever follows the `?`, the call leaves every word of `Params` as it
was. -/
theorem C10_query_never_mutates (scanF : List Char → Option Nat) (P : Params_t)
    (pre rest : List Char) (hpre : '=' ∉ pre)
    (hname : ∃ e ∈ Uart_command_table, e.name <+: pre ++ '=' :: '?' :: rest) :
    (Uart_Command_Process scanF P (pre ++ '=' :: '?' :: rest)).Params = P := by
  obtain ⟨i, e, hm⟩ := exists_firstMatch hname
  rw [process_query scanF P pre ('?' :: rest) i e hpre hm rfl]

theorem C10_query_never_mutates_witness :
    ('=' ∉ "XY".toList ∧
        ∃ e ∈ Uart_command_table, e.name <+: "XY".toList ++ '=' :: '?' :: "1,2".toList) ∧
      (Uart_Command_Process (fun _ => some 7) ⟨1, 2, 3, 4, 5, 6, 7⟩
        ("XY".toList ++ '=' :: '?' :: "1,2".toList)).Params = ⟨1, 2, 3, 4, 5, 6, 7⟩ :=
  ⟨⟨by decide, by decide⟩,
    C10_query_never_mutates (fun _ => some 7) ⟨1, 2, 3, 4, 5, 6, 7⟩ "XY".toList "1,2".toList
      (by decide) (by decide)⟩

/-- C11: the transport is invoked exactly once for a line that resolves to a
query and never otherwise: not for a set (complete or partial), not for an
unknown command, not for a line without `=`. -/
theorem C11_transmission_once_per_query (scanF : List Char → Option Nat) (P : Params_t)
    (data : List Char) :
    (ResolvesToQuery data → (Uart_Command_Process scanF P data).sent.length = 1) ∧
      (¬ ResolvesToQuery data → (Uart_Command_Process scanF P data).sent = []) ∧
      (∀ pre pv, data = pre ++ '=' :: pv → '=' ∉ pre → pv.headD '\x00' ≠ '?' →
        (Uart_Command_Process scanF P data).sent = []) ∧
      ((∀ e ∈ Uart_command_table, ¬ e.name <+: data) →
        (Uart_Command_Process scanF P data).sent = []) ∧
      ('=' ∉ data → (Uart_Command_Process scanF P data).sent = []) := by
  have hno : (∀ e ∈ Uart_command_table, ¬ e.name <+: data) →
      (Uart_Command_Process scanF P data).sent = [] := by
    intro h
    rw [process_noMatch scanF P data h]
  have hne : '=' ∉ data → (Uart_Command_Process scanF P data).sent = [] := by
    intro h
    rw [process_noEq scanF P data h]
  have hset : ∀ pre pv, data = pre ++ '=' :: pv → '=' ∉ pre → pv.headD '\x00' ≠ '?' →
      (Uart_Command_Process scanF P data).sent = [] := by
    intro pre pv hd hpre hq
    by_cases hn : ∃ e ∈ Uart_command_table, e.name <+: data
    · obtain ⟨i, e, hm⟩ := exists_firstMatch hn
      subst hd
      rw [process_set scanF P pre pv i e hpre hm hq]
    · exact hno (fun e he hp => hn ⟨e, he, hp⟩)
  refine ⟨?_, ?_, hset, hno, hne⟩
  · rintro ⟨pre, pv, hd, hpre, hn, hq⟩
    obtain ⟨i, e, hm⟩ := exists_firstMatch hn
    subst hd
    rw [process_query scanF P pre pv i e hpre hm hq]
    rfl
  · intro hnq
    rcases line_cases data with h | ⟨pre, pv, hd, hpre, h⟩ | ⟨pre, pv, i, e, hd, hpre, hm⟩
    · exact hne h
    · exact hno h
    · by_cases hq : pv.headD '\x00' = '?'
      · exact absurd ⟨pre, pv, hd, hpre, ⟨e, (firstMatch_index hm).1, hm.2.1⟩, hq⟩ hnq
      · exact hset pre pv hd hpre hq

/-- C12: a set touches only its own parameter.  When the line resolves to the
entry `e`, every word of `Params` that is none of the `para_num` elements of
`e` has after the call the value it had before, whether the set ran to the end
or stopped part-way (and for a query as well).  Field by field: a command on
`RGB` leaves `State`, `Temper` and `XY` alone, and likewise for the other
three entries. -/
theorem C12_set_touches_only_its_parameter (scanF : List Char → Option Nat) (P : Params_t)
    (pre pv : List Char) (i : Nat) (e : Uart_command) (hpre : '=' ∉ pre)
    (hm : FirstMatch (pre ++ '=' :: pv) i e) :
    (∀ a, (∀ j, j < e.para_num → a ≠ e.paraOffset + 4 * j) →
        (Uart_Command_Process scanF P (pre ++ '=' :: pv)).Params.load a = P.load a) ∧
      (e.name = "RGB".toList →
        (Uart_Command_Process scanF P (pre ++ '=' :: pv)).Params.State = P.State ∧
        (Uart_Command_Process scanF P (pre ++ '=' :: pv)).Params.Temper = P.Temper ∧
        (Uart_Command_Process scanF P (pre ++ '=' :: pv)).Params.XY0 = P.XY0 ∧
        (Uart_Command_Process scanF P (pre ++ '=' :: pv)).Params.XY1 = P.XY1) ∧
      (e.name = "State".toList →
        (Uart_Command_Process scanF P (pre ++ '=' :: pv)).Params.RGB0 = P.RGB0 ∧
        (Uart_Command_Process scanF P (pre ++ '=' :: pv)).Params.RGB1 = P.RGB1 ∧
        (Uart_Command_Process scanF P (pre ++ '=' :: pv)).Params.RGB2 = P.RGB2 ∧
        (Uart_Command_Process scanF P (pre ++ '=' :: pv)).Params.Temper = P.Temper ∧
        (Uart_Command_Process scanF P (pre ++ '=' :: pv)).Params.XY0 = P.XY0 ∧
        (Uart_Command_Process scanF P (pre ++ '=' :: pv)).Params.XY1 = P.XY1) ∧
      (e.name = "Temper".toList →
        (Uart_Command_Process scanF P (pre ++ '=' :: pv)).Params.RGB0 = P.RGB0 ∧
        (Uart_Command_Process scanF P (pre ++ '=' :: pv)).Params.RGB1 = P.RGB1 ∧
        (Uart_Command_Process scanF P (pre ++ '=' :: pv)).Params.RGB2 = P.RGB2 ∧
        (Uart_Command_Process scanF P (pre ++ '=' :: pv)).Params.State = P.State ∧
        (Uart_Command_Process scanF P (pre ++ '=' :: pv)).Params.XY0 = P.XY0 ∧
        (Uart_Command_Process scanF P (pre ++ '=' :: pv)).Params.XY1 = P.XY1) ∧
      (e.name = "XY".toList →
        (Uart_Command_Process scanF P (pre ++ '=' :: pv)).Params.RGB0 = P.RGB0 ∧
        (Uart_Command_Process scanF P (pre ++ '=' :: pv)).Params.RGB1 = P.RGB1 ∧
        (Uart_Command_Process scanF P (pre ++ '=' :: pv)).Params.RGB2 = P.RGB2 ∧
        (Uart_Command_Process scanF P (pre ++ '=' :: pv)).Params.State = P.State ∧
        (Uart_Command_Process scanF P (pre ++ '=' :: pv)).Params.Temper = P.Temper) := by
  have hf := process_frame scanF P pre pv i e hpre hm
  have hn := table_entry_of_name (firstMatch_index hm).1
  refine ⟨hf, ?_, ?_, ?_, ?_⟩
  · intro h
    have he := hn.1 h
    subst he
    exact ⟨hf 12 (fun j hj => by simp only at hj ⊢; omega),
      hf 16 (fun j hj => by simp only at hj ⊢; omega),
      hf 20 (fun j hj => by simp only at hj ⊢; omega),
      hf 24 (fun j hj => by simp only at hj ⊢; omega)⟩
  · intro h
    have he := hn.2.1 h
    subst he
    exact ⟨hf 0 (fun j hj => by simp only at hj ⊢; omega),
      hf 4 (fun j hj => by simp only at hj ⊢; omega),
      hf 8 (fun j hj => by simp only at hj ⊢; omega),
      hf 16 (fun j hj => by simp only at hj ⊢; omega),
      hf 20 (fun j hj => by simp only at hj ⊢; omega),
      hf 24 (fun j hj => by simp only at hj ⊢; omega)⟩
  · intro h
    have he := hn.2.2.1 h
    subst he
    exact ⟨hf 0 (fun j hj => by simp only at hj ⊢; omega),
      hf 4 (fun j hj => by simp only at hj ⊢; omega),
      hf 8 (fun j hj => by simp only at hj ⊢; omega),
      hf 12 (fun j hj => by simp only at hj ⊢; omega),
      hf 20 (fun j hj => by simp only at hj ⊢; omega),
      hf 24 (fun j hj => by simp only at hj ⊢; omega)⟩
  · intro h
    have he := hn.2.2.2 h
    subst he
    exact ⟨hf 0 (fun j hj => by simp only at hj ⊢; omega),
      hf 4 (fun j hj => by simp only at hj ⊢; omega),
      hf 8 (fun j hj => by simp only at hj ⊢; omega),
      hf 12 (fun j hj => by simp only at hj ⊢; omega),
      hf 16 (fun j hj => by simp only at hj ⊢; omega)⟩

theorem C12_set_touches_only_its_parameter_witness :
    (Uart_Command_Process (fun _ => some 9) ⟨1, 2, 3, 4, 5, 6, 7⟩
        ("RGB".toList ++ '=' :: "8,x".toList)).Params.State = 4 ∧
      (Uart_Command_Process (fun _ => some 9) ⟨1, 2, 3, 4, 5, 6, 7⟩
        ("RGB".toList ++ '=' :: "8,x".toList)).Params.Temper = 5 ∧
      (Uart_Command_Process (fun _ => some 9) ⟨1, 2, 3, 4, 5, 6, 7⟩
        ("RGB".toList ++ '=' :: "8,x".toList)).Params.XY0 = 6 ∧
      (Uart_Command_Process (fun _ => some 9) ⟨1, 2, 3, 4, 5, 6, 7⟩
        ("RGB".toList ++ '=' :: "8,x".toList)).Params.XY1 = 7 :=
  (C12_set_touches_only_its_parameter (fun _ => some 9) ⟨1, 2, 3, 4, 5, 6, 7⟩ "RGB".toList
    "8,x".toList 0 ⟨"RGB".toList, "%d".toList, 3, 0⟩ (by decide)
    (by unfold FirstMatch; decide)).2.1 rfl

/-- C13: the layout invariant of the table.  Each entry bears the name of a
member of `struct Params_t`, its `paraOffset` is the offset of that member, its
`para_num` is the member's number of elements and its format is the one of the
member's type, so the range of an entry is its own member and ends within the
28 bytes of the aggregate (RGB: 3 at 0, State: 1 at 12, Temper: 1 at 16, XY: 2
at 20); the ranges of two different entries share no element; and the words of
the store at those offsets are the members themselves. -/
theorem C13_registry_layout_invariant :
    (∀ e ∈ Uart_command_table, ∃ m ∈ Params_t_members, m.name = e.name ∧
        e.paraOffset = offsetof Params_t_members e.name ∧ e.para_num = m.count ∧
        e.scanfmt = ['%', m.kind] ∧ e.paraOffset + 4 * e.para_num ≤ sizeof_Params_t) ∧
      sizeof_Params_t = 28 ∧
      Uart_command_table.map (fun e => (e.name, e.paraOffset, e.para_num)) =
        [("RGB".toList, 0, 3), ("State".toList, 12, 1), ("Temper".toList, 16, 1),
          ("XY".toList, 20, 2)] ∧
      (∀ e1 ∈ Uart_command_table, ∀ e2 ∈ Uart_command_table, e1 ≠ e2 →
        ∀ j1, j1 < e1.para_num → ∀ j2, j2 < e2.para_num →
          e1.paraOffset + 4 * j1 ≠ e2.paraOffset + 4 * j2) ∧
      (∀ P : Params_t,
        [P.load 0, P.load 4, P.load 8] = [P.RGB0, P.RGB1, P.RGB2] ∧
        [P.load 12] = [P.State] ∧ [P.load 16] = [P.Temper] ∧
        [P.load 20, P.load 24] = [P.XY0, P.XY1]) := by
  refine ⟨by decide, by decide, by decide, by decide, fun P => ⟨rfl, rfl, rfl, rfl⟩⟩

/-- C14: the names of the table are prefix-free.  They are non-empty, hold
none of `=`, `,` and `?`, and no name is a prefix of the name of another
entry; so for every line at most one entry passes the test
`strncmp(data, name, strlen(name)) == 0`, and the scan of the table in any
other order runs the branch of the same entry (or of none). -/
theorem C14_names_prefix_free :
    (∀ e ∈ Uart_command_table,
        e.name ≠ [] ∧ '=' ∉ e.name ∧ ',' ∉ e.name ∧ '?' ∉ e.name) ∧
      (∀ e1 ∈ Uart_command_table, ∀ e2 ∈ Uart_command_table,
        e1 ≠ e2 → ¬ e1.name <+: e2.name) ∧
      (∀ (data : List Char), ∀ e1 ∈ Uart_command_table, ∀ e2 ∈ Uart_command_table,
        strncmp data e1.name (strlen e1.name) = 0 →
        strncmp data e2.name (strlen e2.name) = 0 → e1 = e2) ∧
      (∀ (scanF : List Char → Option Nat) (data pv : List Char) (s : ScanState)
        (tbl : List Uart_command), tbl.Perm Uart_command_table →
        (∀ e ∈ Uart_command_table, e.name <+: data →
          (∃ k, tbl[k]? = some e ∧
            tableLoop scanF data pv tbl 0 s = commandBody scanF e k pv s) ∧
          (∃ k, Uart_command_table[k]? = some e ∧
            tableLoop scanF data pv Uart_command_table 0 s = commandBody scanF e k pv s)) ∧
        ((∀ e ∈ Uart_command_table, ¬ e.name <+: data) →
          tableLoop scanF data pv tbl 0 s = s ∧
          tableLoop scanF data pv Uart_command_table 0 s = s)) := by
  refine ⟨by decide, table_prefix_free, ?_, ?_⟩
  · intro data e1 h1 e2 h2 c1 c2
    exact table_match_unique data e1 e2 h1 h2
      ((strncmp_eq_zero_iff data e1.name (table_names_no_nul e1 h1)).1 c1)
      ((strncmp_eq_zero_iff data e2.name (table_names_no_nul e2 h2)).1 c2)
  · intro scanF data pv s tbl hperm
    have h1 := tableLoop_perm scanF data pv s tbl hperm
    have h2 := tableLoop_perm scanF data pv s Uart_command_table (List.Perm.refl _)
    exact ⟨fun e he hp => ⟨h1.1 e he hp, h2.1 e he hp⟩, fun hno => ⟨h1.2 hno, h2.2 hno⟩⟩

/-- C15 fails on the code by one byte, through the defect met in C5: the
length handed to the transport is `ParamsPtr - tx_temp_buffer + 1`.  From the
initial store the query `Temper=?` returns `UART_COMMAND_PROCESS_OK` and hands
over the 18 bytes of `Temper=0.000000` + CR LF NUL, not the 17 bytes of the
text: the terminating NUL of the buffer follows the line ending. -/
theorem C15_default_float_query_bytes (scanF : List Char → Option Nat) :
    Uart_Command_Process scanF Params "Temper=?".toList =
        ⟨UART_COMMAND_PROCESS_OK, Params, ["Temper=0.000000\r\n\x00".toList]⟩ ∧
      "Temper=0.000000\r\n\x00".toList.length = 18 ∧
      (Uart_Command_Process scanF Params "Temper=?".toList).sent ≠
        ["Temper=0.000000\r\n".toList] := by
  have hm : FirstMatch ("Temper".toList ++ '=' :: ['?']) 2
      ⟨"Temper".toList, "%f".toList, 1, 16⟩ := by
    unfold FirstMatch; decide
  have hq := process_query scanF Params "Temper".toList ['?'] 2
    ⟨"Temper".toList, "%f".toList, 1, 16⟩ (by decide) hm rfl
  have hdata : "Temper=?".toList = "Temper".toList ++ '=' :: ['?'] := rfl
  have h : Uart_Command_Process scanF Params "Temper=?".toList =
      ⟨UART_COMMAND_PROCESS_OK, Params, ["Temper=0.000000\r\n\x00".toList]⟩ := by
    rw [hdata, hq]
    decide
  refine ⟨h, rfl, ?_⟩
  rw [h]
  decide

/-- C16: the exact effect of the set path.  For a line that resolves to a set
of the entry `e`, element `j < para_num` ends with the converted value when
the text after the first `=` has `j` commas or more and the text after the
`j`-th comma converts under the format of `e`, and with its prior value
otherwise.  The text after the `j`-th comma exists exactly when there are `j`
commas; `%d` converts exactly the texts that begin, after optional white
space, with a decimal integer.  A field that does not convert is skipped and
the later ones are still written: `RGB=1,x,3` gives `RGB = (1, old, 3)`. -/
theorem C16_exact_effect_of_set (scanF : List Char → Option Nat) (P : Params_t)
    (pre pv : List Char) (i : Nat) (e : Uart_command) (hpre : '=' ∉ pre)
    (hm : FirstMatch (pre ++ '=' :: pv) i e) (hq : pv.headD '\x00' ≠ '?') :
    (∀ j, j < e.para_num →
        (Uart_Command_Process scanF P (pre ++ '=' :: pv)).Params.load (e.paraOffset + 4 * j) =
          match afterCommas j pv with
          | some t =>
            (match sscanf scanF t e.scanfmt with
             | some w => w
             | none => P.load (e.paraOffset + 4 * j))
          | none => P.load (e.paraOffset + 4 * j)) ∧
      (∀ j, (afterCommas j pv).isSome = true ↔ j ≤ pv.count ',') ∧
      (e.scanfmt = ['%', 'd'] → ∀ t, sscanf scanF t e.scanfmt = (scanInt t).map toWord ∧
        (scanInt t).isSome = startsWithInt t) ∧
      (e.scanfmt = ['%', 'f'] → ∀ t, sscanf scanF t e.scanfmt =
        (scanF t).map (fun w => w % 2 ^ 32)) ∧
      Uart_Command_Process scanF P "RGB=1,x,3".toList =
        ⟨UART_COMMAND_PROCESS_OK, { P with RGB0 := 1, RGB2 := 3 }, []⟩ := by
  refine ⟨?_, fun j => afterCommas_isSome_iff j pv, ?_, ?_, rfl⟩
  · intro j hj
    rw [(process_set_spec scanF P pre pv i e hpre hm hq).2.2.2.1 j hj]
    cases afterCommas j pv with
    | none => rfl
    | some t => rfl
  · intro hd t
    rw [hd]
    exact ⟨rfl, scanInt_isSome t⟩
  · intro hf t
    rw [hf]
    rfl

theorem C16_exact_effect_of_set_witness :
    (Uart_Command_Process (fun _ => none) ⟨7, 8, 9, 0, 0, 0, 0⟩
        ("RGB".toList ++ '=' :: "1,x,3".toList)).Params.load (0 + 4 * 1) = 8 ∧
      (Uart_Command_Process (fun _ => none) ⟨7, 8, 9, 0, 0, 0, 0⟩
        ("RGB".toList ++ '=' :: "1,x,3".toList)).Params.load (0 + 4 * 2) = toWord 3 :=
  ⟨(C16_exact_effect_of_set (fun _ => none) ⟨7, 8, 9, 0, 0, 0, 0⟩ "RGB".toList "1,x,3".toList 0
      ⟨"RGB".toList, "%d".toList, 3, 0⟩ (by decide) (by unfold FirstMatch; decide)
      (by decide)).1 1 (by decide),
    (C16_exact_effect_of_set (fun _ => none) ⟨7, 8, 9, 0, 0, 0, 0⟩ "RGB".toList "1,x,3".toList 0
      ⟨"RGB".toList, "%d".toList, 3, 0⟩ (by decide) (by unfold FirstMatch; decide)
      (by decide)).1 2 (by decide)⟩

/-- C17: the exact return status.  The call returns `UART_COMMAND_PROCESS_OK`
(0) or `UART_COMMAND_PROCESS_ERROR` (1), and it returns OK exactly when the
line holds `=`, some name of the table is a prefix of it, and for the first
such entry either the character right after the first `=` is `?` or the text
after the first `=` has `para_num - 1` commas or more.  Whether a field
converts plays no part (`State=abc` and `RGB=,,` return OK and leave the store
alone), nor does the truncation of a response (the query of `XY` with two
long values returns OK). -/
theorem C17_exact_return_status (scanF : List Char → Option Nat) (P : Params_t)
    (data : List Char) :
    ((Uart_Command_Process scanF P data).Status = UART_COMMAND_PROCESS_OK ∨
        (Uart_Command_Process scanF P data).Status = UART_COMMAND_PROCESS_ERROR) ∧
      UART_COMMAND_PROCESS_OK = 0 ∧ UART_COMMAND_PROCESS_ERROR = 1 ∧
      ((Uart_Command_Process scanF P data).Status = UART_COMMAND_PROCESS_OK ↔
        ∃ pre pv i e, data = pre ++ '=' :: pv ∧ '=' ∉ pre ∧ FirstMatch data i e ∧
          (pv.headD '\x00' = '?' ∨ e.para_num - 1 ≤ pv.count ',')) ∧
      Uart_Command_Process scanF P "State=abc".toList = ⟨UART_COMMAND_PROCESS_OK, P, []⟩ ∧
      Uart_Command_Process scanF P "RGB=,,".toList = ⟨UART_COMMAND_PROCESS_OK, P, []⟩ ∧
      (Uart_Command_Process scanF ⟨0, 0, 0, 0, 0, 0xFF7FFFFF, 0xFF7FFFFF⟩
        "XY=?".toList).Status = UART_COMMAND_PROCESS_OK := by
  have hne : UART_COMMAND_PROCESS_ERROR ≠ UART_COMMAND_PROCESS_OK := by decide
  have hxy : (Uart_Command_Process scanF ⟨0, 0, 0, 0, 0, 0xFF7FFFFF, 0xFF7FFFFF⟩
      "XY=?".toList).Status = UART_COMMAND_PROCESS_OK := by
    have hm : FirstMatch ("XY".toList ++ '=' :: ['?']) 3 ⟨"XY".toList, "%f".toList, 2, 20⟩ := by
      unfold FirstMatch; decide
    have hq := process_query scanF ⟨0, 0, 0, 0, 0, 0xFF7FFFFF, 0xFF7FFFFF⟩ "XY".toList ['?'] 3
      ⟨"XY".toList, "%f".toList, 2, 20⟩ (by decide) hm rfl
    have hdata : "XY=?".toList = "XY".toList ++ '=' :: ['?'] := rfl
    rw [hdata, hq]
  refine ⟨?_, rfl, rfl, ?_, rfl, rfl, hxy⟩
  · rcases line_cases data with h | ⟨pre, pv, _, _, h⟩ | ⟨pre, pv, i, e, hd, hpre, hm⟩
    · rw [process_noEq scanF P data h]; exact Or.inr rfl
    · rw [process_noMatch scanF P data h]; exact Or.inr rfl
    · subst hd
      by_cases hq : pv.headD '\x00' = '?'
      · rw [process_query scanF P pre pv i e hpre hm hq]; exact Or.inl rfl
      · exact (process_set_spec scanF P pre pv i e hpre hm hq).2.1
  · constructor
    · intro hok
      rcases line_cases data with h | ⟨pre, pv, _, _, h⟩ | ⟨pre, pv, i, e, hd, hpre, hm⟩
      · rw [process_noEq scanF P data h] at hok
        exact absurd hok hne
      · rw [process_noMatch scanF P data h] at hok
        exact absurd hok hne
      · refine ⟨pre, pv, i, e, hd, hpre, hm, ?_⟩
        subst hd
        by_cases hq : pv.headD '\x00' = '?'
        · exact Or.inl hq
        · right
          have h1 := (process_set_spec scanF P pre pv i e hpre hm hq).1
          exact (afterCommas_isSome_iff _ _).1 (h1.1 hok)
    · rintro ⟨pre, pv, i, e, hd, hpre, hm, hcond⟩
      subst hd
      by_cases hq : pv.headD '\x00' = '?'
      · rw [process_query scanF P pre pv i e hpre hm hq]
      · rcases hcond with h | h
        · exact absurd h hq
        · have h1 := (process_set_spec scanF P pre pv i e hpre hm hq).1
          exact h1.2 ((afterCommas_isSome_iff _ _).2 h)

/-- C18: integer responses always fit.  For every store the query of `RGB` and
the query of `State` pass every capacity test: the response is whole and ends
with the line ending, its text has at most 41 characters for `RGB` and 19 for
`State`, the buffer is still 64 bytes long afterwards (no byte, the
terminating NUL included, is written at index 64 or beyond) and `ParamsPtr`
ends at the length of the text. -/
theorem C18_integer_responses_fit (scanF : List Char → Option Nat) (P : Params_t) :
    ((Uart_Command_Process scanF P "RGB=?".toList).sent =
        ["RGB=".toList ++ fmtInt (toInt P.RGB0) ++ ',' :: fmtInt (toInt P.RGB1) ++
          ',' :: fmtInt (toInt P.RGB2) ++ ['\r', '\n'] ++ ['\x00']] ∧
      ("RGB=".toList ++ fmtInt (toInt P.RGB0) ++ ',' :: fmtInt (toInt P.RGB1) ++
          ',' :: fmtInt (toInt P.RGB2) ++ ['\r', '\n']).length ≤ 41 ∧
      (formatResponse ⟨"RGB".toList, "%d".toList, 3, 0⟩ P 0).tx_temp_buffer.length = 64 ∧
      (formatResponse ⟨"RGB".toList, "%d".toList, 3, 0⟩ P 0).ParamsPtr =
        ("RGB=".toList ++ fmtInt (toInt P.RGB0) ++ ',' :: fmtInt (toInt P.RGB1) ++
          ',' :: fmtInt (toInt P.RGB2) ++ ['\r', '\n']).length) ∧
    ((Uart_Command_Process scanF P "State=?".toList).sent =
        ["State=".toList ++ fmtInt (toInt P.State) ++ ['\r', '\n'] ++ ['\x00']] ∧
      ("State=".toList ++ fmtInt (toInt P.State) ++ ['\r', '\n']).length ≤ 19 ∧
      (formatResponse ⟨"State".toList, "%d".toList, 1, 12⟩ P 12).tx_temp_buffer.length = 64 ∧
      (formatResponse ⟨"State".toList, "%d".toList, 1, 12⟩ P 12).ParamsPtr =
        ("State=".toList ++ fmtInt (toInt P.State) ++ ['\r', '\n']).length) := by
  have l0 := fmtInt_length P.RGB0
  have l1 := fmtInt_length P.RGB1
  have l2 := fmtInt_length P.RGB2
  have l3 := fmtInt_length P.State
  constructor
  · have hT : "RGB".toList ++ ['='] ++ intText P 3 3 0 0 =
        "RGB=".toList ++ fmtInt (toInt P.RGB0) ++ ',' :: fmtInt (toInt P.RGB1) ++
          ',' :: fmtInt (toInt P.RGB2) ++ ['\r', '\n'] := by
      simp [intText, Params_t.load]
    have hlen : ("RGB=".toList ++ fmtInt (toInt P.RGB0) ++ ',' :: fmtInt (toInt P.RGB1) ++
          ',' :: fmtInt (toInt P.RGB2) ++ ['\r', '\n']).length ≤ 41 := by
      simp only [List.length_append, List.length_cons, String.toList, List.length_nil]
      omega
    have hm : FirstMatch ("RGB".toList ++ '=' :: ['?']) 0 ⟨"RGB".toList, "%d".toList, 3, 0⟩ := by
      unfold FirstMatch; decide
    have hs := query_int_sent scanF P "RGB".toList ['?'] 0 ⟨"RGB".toList, "%d".toList, 3, 0⟩
      (by decide) hm rfl rfl (by decide)
    have hf := formatResponse_int ⟨"RGB".toList, "%d".toList, 3, 0⟩ P rfl (by decide)
    simp only [hT] at hf
    refine ⟨?_, hlen, ?_, ?_⟩
    · have hdata : "RGB=?".toList = "RGB".toList ++ '=' :: ['?'] := rfl
      rw [hdata, hs]
      simp [intText, Params_t.load]
    · rw [hf]
      exact txOf_buffer_length _ _ (by omega)
    · rw [hf]
      rfl
  · have hT : "State".toList ++ ['='] ++ intText P 1 1 0 12 =
        "State=".toList ++ fmtInt (toInt P.State) ++ ['\r', '\n'] := by
      simp [intText, Params_t.load]
    have hlen : ("State=".toList ++ fmtInt (toInt P.State) ++ ['\r', '\n']).length ≤ 19 := by
      simp only [List.length_append, List.length_cons, String.toList, List.length_nil]
      omega
    have hm : FirstMatch ("State".toList ++ '=' :: ['?']) 1
        ⟨"State".toList, "%d".toList, 1, 12⟩ := by
      unfold FirstMatch; decide
    have hs := query_int_sent scanF P "State".toList ['?'] 1
      ⟨"State".toList, "%d".toList, 1, 12⟩ (by decide) hm rfl rfl (by decide)
    have hf := formatResponse_int ⟨"State".toList, "%d".toList, 1, 12⟩ P rfl (by decide)
    simp only [hT] at hf
    refine ⟨?_, hlen, ?_, ?_⟩
    · have hdata : "State=?".toList = "State".toList ++ '=' :: ['?'] := rfl
      rw [hdata, hs]
      simp [intText, Params_t.load]
    · rw [hf]
      exact txOf_buffer_length _ _ (by omega)
    · rw [hf]
      rfl

/-- C19: processing is idempotent on the store.  For every line and every
store, a second run of `Uart_Command_Process` on the same line, started from
the store the first run left, leaves that store as it is and returns the
status of the first run. -/
theorem C19_processing_idempotent_on_store (scanF : List Char → Option Nat) (P : Params_t)
    (data : List Char) :
    (Uart_Command_Process scanF (Uart_Command_Process scanF P data).Params data).Params =
        (Uart_Command_Process scanF P data).Params ∧
      (Uart_Command_Process scanF (Uart_Command_Process scanF P data).Params data).Status =
        (Uart_Command_Process scanF P data).Status := by
  rcases line_cases data with h | ⟨pre, pv, _, _, h⟩ | ⟨pre, pv, i, e, hd, hpre, hm⟩
  · rw [process_noEq scanF P data h, process_noEq scanF _ data h]
    exact ⟨rfl, rfl⟩
  · rw [process_noMatch scanF P data h, process_noMatch scanF _ data h]
    exact ⟨rfl, rfl⟩
  · subst hd
    by_cases hq : pv.headD '\x00' = '?'
    · rw [process_query scanF P pre pv i e hpre hm hq, process_query scanF _ pre pv i e hpre hm hq]
      exact ⟨rfl, rfl⟩
    · obtain ⟨h1, h2, _, h4, h5⟩ := process_set_spec scanF P pre pv i e hpre hm hq
      obtain ⟨g1, g2, _, g4, g5⟩ := process_set_spec scanF
        (Uart_Command_Process scanF P (pre ++ '=' :: pv)).Params pre pv i e hpre hm hq
      constructor
      · apply Params_ext
        intro a
        by_cases ha : ∃ j, j < e.para_num ∧ a = e.paraOffset + 4 * j
        · obtain ⟨j, hj, rfl⟩ := ha
          rw [g4 j hj]
          have := h4 j hj
          cases hc : (afterCommas j pv).bind (fun t => sscanf scanF t e.scanfmt) with
          | none => rfl
          | some w =>
            rw [hc] at this
            exact this.symm
        · exact g5 a (fun j hj heq => ha ⟨j, hj, heq⟩)
      · by_cases hc : (afterCommas (e.para_num - 1) pv).isSome = true
        · rw [h1.2 hc, g1.2 hc]
        · have n1 := fun h => hc (h1.1 h)
          have n2 := fun h => hc (g1.1 h)
          rcases h2 with h | h
          · exact absurd h n1
          · rcases g2 with g | g
            · exact absurd g n2
            · rw [h, g]

end UartCommand
